import Mathlib

/-!
Verification model of the ReactiveStore library (src/reactive_store.js,
src/helpers.js).

JavaScript values are modelled with an explicit heap: primitives are
immediate, objects live at numeric addresses.  Reference equality is
address equality, which makes in-place mutation, aliasing and reference
cycles expressible.  The unique Symbol sentinels DELETE / CANCEL are
primitive symbol values; the SHALLOW marker is a boolean on the object.
The Tracker dependency objects are modelled by numeric identifiers
allocated from a counter; dep.changed() during a flush is modelled by
appending the identifier to a notification log.  The recursive diff
helpers are total functions with an explicit fuel argument (the source
recursion is bounded by its seen-set; fuel-sufficiency is proved below).
-/

set_option maxRecDepth 4000

namespace RS

/-- A JavaScript value: primitives, the store's unique symbol sentinels,
the global Object constructor function, or a reference to a heap object. -/
inductive Val where
  | undef
  | null
  | bool (b : Bool)
  | num (n : Int)
  | str (s : String)
  | sym (n : Nat)
  | sDELETE
  | sCANCEL
  | objectCtor
  | ref (a : Nat)
deriving DecidableEq, Repr

/-- The runtime category of a heap object: plain Object, Array, a function,
or one of the opaque instance kinds relevant to the equality registry. -/
inductive ObjKind where
  | object
  | array
  | func
  | date (time : Int)
  | regexp (source : String) (flags : List Char)
  | jsset (elems : List Val)
  | other (tag : Nat)
deriving DecidableEq, Repr

/-- A heap object: its kind, its own enumerable properties in insertion
order, and whether ReactiveStore.SHALLOW has been set on it. -/
structure Obj where
  kind : ObjKind
  fields : List (String × Val)
  shallow : Bool
deriving DecidableEq, Repr

/-- The object heap: an association list from addresses to objects plus the
next fresh address. -/
structure Heap where
  objs : List (Nat × Obj)
  next : Nat
deriving DecidableEq, Repr

def Heap.lookup (h : Heap) (a : Nat) : Option Obj :=
  (h.objs.find? (fun e => e.1 == a)).map (·.2)

def Heap.objAt (h : Heap) : Val → Option Obj
  | .ref a => h.lookup a
  | _ => none

/-- The JavaScript test (value instanceof Object): true exactly for
references (arrays, functions, dates, ... are all instances of Object). -/
def instanceOfObject : Val → Bool
  | .ref _ => true
  | .objectCtor => true
  | _ => false

/-- helpers.isObject: val instanceof Object and val.constructor === Object. -/
def isObject (h : Heap) (v : Val) : Bool :=
  match h.objAt v with
  | some o => o.kind == .object
  | none => false

def isArray (h : Heap) (v : Val) : Bool :=
  match h.objAt v with
  | some o => o.kind == .array
  | none => false

/-- ReactiveStore.isTraversable: the value is a plain Object or Array and
its SHALLOW marker is not set. -/
def isTraversable (h : Heap) (v : Val) : Bool :=
  (isObject h v || isArray h v) && !((h.objAt v).map Obj.shallow).getD false

def Obj.keys (o : Obj) : List String := o.fields.map (·.1)

/-- Object.keys of a value (own enumerable property names, in order). -/
def objKeys (h : Heap) (v : Val) : List String :=
  match h.objAt v with
  | some o => o.keys
  | none => []

/-- value.propertyIsEnumerable(k). -/
def propEnum (h : Heap) (v : Val) (k : String) : Bool :=
  match h.objAt v with
  | some o => o.keys.contains k
  | none => false

/-- Property access value[k]; undefined when the property is absent. -/
def valAt (h : Heap) (v : Val) (k : String) : Val :=
  match h.objAt v with
  | some o =>
    match o.fields.find? (fun e => e.1 == k) with
    | some e => e.2
    | none => .undef
  | none => Val.undef

/-- A tag identifying a value's constructor, for the
oldValue.constructor !== newValue.constructor comparison. -/
def ObjKind.ctag : ObjKind → Nat
  | .object => 0
  | .array => 1
  | .func => 2
  | .date _ => 3
  | .regexp _ _ => 4
  | .jsset _ => 5
  | .other t => 6 + t

def sameCtor (h : Heap) (v w : Val) : Bool :=
  match h.objAt v, h.objAt w with
  | some o, some p => o.kind.ctag == p.kind.ctag
  | _, _ => false

/-- helpers.setsAreEqual: both are Set instances of the same size and every
element of the first is a member of the second (SameValueZero membership). -/
def setsAreEqual (h : Heap) (va vb : Val) : Bool :=
  match h.objAt va, h.objAt vb with
  | some ⟨.jsset ea, _, _⟩, some ⟨.jsset eb, _, _⟩ =>
    ea.length == eb.length && ea.all (fun x => eb.contains x)
  | _, _ => false

/-- The built-in Date equality check from ReactiveStore.eqCheckMap. -/
def dateEq (h : Heap) (va vb : Val) : Bool :=
  match h.objAt va, h.objAt vb with
  | some ⟨.date t, _, _⟩, some ⟨.date u, _, _⟩ => t == u
  | _, _ => false

/-- The built-in RegExp equality check from ReactiveStore.eqCheckMap. -/
def regexpEq (h : Heap) (va vb : Val) : Bool :=
  match h.objAt va, h.objAt vb with
  | some ⟨.regexp s fs, _, _⟩, some ⟨.regexp t gs, _, _⟩ =>
    s == t && fs.dedup.length == gs.dedup.length && fs.all (fun c => gs.contains c)
  | _, _ => false

/-- The non-traversable (opaque) branch of the diff: consult eqCheckMap by
the old value's constructor; a missing entry or a failing check means
changed.  The map holds its initial entries for Set, Date and RegExp. -/
def eqCheckChanged (h : Heap) (oldV newV : Val) : Bool :=
  match h.objAt oldV with
  | some o =>
    match o.kind with
    | .jsset _ => !setsAreEqual h oldV newV
    | .date _ => !dateEq h oldV newV
    | .regexp _ _ => !regexpEq h oldV newV
    | _ => true
  | none => true

/-- One dependency node's own data: the optional Tracker.Dependency (by
identifier), the optional equality dependency map, and the reference to the
currently active equality dependency. -/
structure NodeData where
  dep : Option Nat
  eqDepMap : Option (List (Val × Nat))
  activeEqDep : Option Nat
deriving DecidableEq, Repr

def NodeData.empty : NodeData := ⟨none, none, none⟩

/-- The dependency tree, flattened: one entry per existing node, addressed
by its token path from the root (the root node has path []).  The subDeps
object of a node corresponds to the set of entries one token longer. -/
abbrev DepTree := List (List String × NodeData)

def treeHas (t : DepTree) (p : List String) : Bool :=
  t.any (fun e => e.1 == p)

def treeGet (t : DepTree) (p : List String) : Option NodeData :=
  (t.find? (fun e => e.1 == p)).map (·.2)

def treeSet (t : DepTree) (p : List String) (nd : NodeData) : DepTree :=
  t.map (fun e => if e.1 = p then (p, nd) else e)

/-- helpers.ensureDepNode: create the node if it does not exist yet. -/
def ensureDepNode (t : DepTree) (p : List String) : DepTree :=
  if treeHas t p then t else t ++ [(p, NodeData.empty)]

/-- Object.keys of a node's subDeps object: the child keys present in the
tree directly below path p, in insertion order. -/
def childKeys (t : DepTree) (p : List String) : List String :=
  t.filterMap (fun e =>
    if e.1.dropLast = p ∧ e.1.length = p.length + 1 then e.1.getLast? else none)

/-- The subDeps member subDeps[k] of the node at p, when that child exists. -/
def subDepAt (t : DepTree) (node : Option (List String)) (k : String) :
    Option (List String) :=
  match node with
  | none => none
  | some p => if treeHas t (p ++ [k]) then some (p ++ [k]) else none

/-- The mutable state the dependency-trigger helpers act on: the dependency
tree (for activeEqDep updates) and the accumulated set _changeData.deps of
dependency identifiers, in insertion order. -/
structure DiffSt where
  tree : DepTree
  cds : List Nat
deriving DecidableEq, Repr

/-- Insertion into a JS Set kept as an insertion-ordered duplicate-free list. -/
def addToSet (l : List Nat) (x : Nat) : List Nat :=
  if x ∈ l then l else l ++ [x]

def mapGet (m : List (Val × Nat)) (v : Val) : Option Nat :=
  (m.find? (fun e => e.1 == v)).map (·.2)

/-- Set insertion of an optional dependency identifier (the changedDepSet
adds performed for dep, eqDep and activeEqDep when present). -/
def optAdd (l : List Nat) (o : Option Nat) : List Nat :=
  match o with
  | some x => addToSet l x
  | none => l

/-- ReactiveStore._registerChange: add the node's dep to the change set and
process an equality-dependency flip against the new value. -/
def registerChange (st : DiffSt) (node : Option (List String)) (newValue : Val) :
    DiffSt :=
  match node with
  | none => st
  | some p =>
    match treeGet st.tree p with
    | none => st
    | some nd =>
      match nd.eqDepMap with
      | none => { st with cds := optAdd st.cds nd.dep }
      | some m =>
        if mapGet m newValue ≠ nd.activeEqDep then
          { tree := treeSet st.tree p { nd with activeEqDep := mapGet m newValue },
            cds := optAdd (optAdd (optAdd st.cds nd.dep) (mapGet m newValue))
              nd.activeEqDep }
        else { st with cds := optAdd st.cds nd.dep }

/-- Membership of a value in the seenTraversableSet (a set of object
references, kept as their addresses). -/
def seenHas (seen : List Nat) : Val → Bool
  | .ref a => seen.contains a
  | _ => false

def seenAdd (seen : List Nat) : Val → List Nat
  | .ref a => if a ∈ seen then seen else seen ++ [a]
  | _ => seen

/-- ReactiveStore._triggerAllDeps: walk the dependency tree below deps in
tandem with keyFilter, registering every node met, recursing only into keys
enumerable in keyFilter, guarded by the seen set.  The deps argument is the
path of the node whose subDeps object was passed (none when the source
passes a falsy deps).  Fuel only bounds the recursion depth. -/
def triggerAllDeps (h : Heap) :
    Nat → DiffSt → Option (List String) → Val → Val → List Nat →
    Option (DiffSt × List Nat)
  | 0, _, _, _, _, _ => none
  | fuel+1, st, deps, keyFilter, curValue, seen =>
    if deps.isSome && isTraversable h keyFilter then
      if seenHas seen keyFilter then some (st, seen)
      else
        let seen1 := seenAdd seen keyFilter
        let cvt := isTraversable h curValue
        let base := deps.getD []
        (childKeys st.tree base).foldl
          (fun acc key =>
            acc.bind fun r =>
              let cvk := if cvt && propEnum h curValue key
                then valAt h curValue key else .undef
              let st1 := registerChange r.1 (some (base ++ [key])) cvk
              if propEnum h keyFilter key then
                triggerAllDeps h fuel st1 (some (base ++ [key]))
                  (valAt h keyFilter key) cvk r.2
              else some (st1, r.2))
          (some (st, seen1))
    else some (st, seen)

/-- The loop over newValueKeys inside _triggerChangedDeps: starting from
the old key set, add the new keys; a key absent from the old value whose
new value is not undefined establishes a change (and, when there are no
subDeps, breaks out of the loop before being added). -/
def processNewKeys (h : Heap) (newV : Val) (subT : Bool) :
    List String → Bool × List String → Bool × List String
  | [], s => s
  | key :: rest, (changed, keySet) =>
    if keySet.contains key then processNewKeys h newV subT rest (changed, keySet)
    else if !changed && valAt h newV key != Val.undef then
      if subT then processNewKeys h newV subT rest (true, keySet ++ [key])
      else (true, keySet)
    else processNewKeys h newV subT rest (changed, keySet ++ [key])

/-- ReactiveStore._triggerChangedDeps: decide whether the value at the node
changed from oldV to newV, registering every dependency that must fire.
Returns the updated state, the seen set and the changed verdict.  The node
argument is the path of the DepNode (none when the source passes a falsy
depNode); the truthiness of subDeps in the source is node.isSome here. -/
def triggerChangedDeps (h : Heap) :
    Nat → DiffSt → Option (List String) → Val → Val → List Nat →
    Option (DiffSt × List Nat × Bool)
  | 0, _, _, _, _, _ => none
  | fuel+1, st, node, oldV, newV, seen =>
    let core : Option (DiffSt × List Nat × Bool × Bool) :=
      if instanceOfObject oldV then
        if oldV = newV then some (st, seen, true, false)
        else if isTraversable h oldV then
          if seenHas seen oldV || seenHas seen newV then some (st, seen, true, false)
          else
            let seen1 := seenAdd seen oldV
            let oldKeys := objKeys h oldV
            if isTraversable h newV then
              let seen2 := seenAdd seen1 newV
              let newKeys := objKeys h newV
              let changed0 := !sameCtor h oldV newV || oldKeys.length != newKeys.length
              let pr := if !changed0 || node.isSome
                then processNewKeys h newV node.isSome newKeys (changed0, oldKeys)
                else (changed0, oldKeys)
              if !pr.1 || node.isSome then
                (pr.2.foldl
                  (fun acc key =>
                    acc.bind fun r =>
                      let subDepNode := subDepAt r.1.tree node key
                      if !r.2.2 || subDepNode.isSome then
                        (triggerChangedDeps h fuel r.1 subDepNode
                            (valAt h oldV key) (valAt h newV key) r.2.1).map
                          (fun q => (q.1, q.2.1, r.2.2 || q.2.2))
                      else some r)
                  (some (st, seen2, pr.1))).map
                  (fun r => (r.1, r.2.1, r.2.2, true))
              else some (st, seen2, pr.1, true)
            else
              if node.isSome then
                (oldKeys.foldl
                  (fun acc key =>
                    acc.bind fun r =>
                      let subDepNode := subDepAt r.1.tree node key
                      if !r.2.2 || subDepNode.isSome then
                        (triggerChangedDeps h fuel r.1 subDepNode
                            (valAt h oldV key) Val.undef r.2.1).map
                          (fun q => (q.1, q.2.1, r.2.2 || q.2.2))
                      else some r)
                  (some (st, seen1, true))).map
                  (fun r => (r.1, r.2.1, r.2.2, false))
              else some (st, seen1, true, false)
        else
          some (st, seen, eqCheckChanged h oldV newV, false)
      else
        some (st, seen, decide (oldV ≠ newV), false)
    core.bind fun r =>
      (if r.2.2.2 then some r.1
       else (triggerAllDeps h fuel r.1 node newV newV []).map (·.1)).map
        fun st2 =>
          let st3 := if r.2.2.1 then registerChange st2 node newV else st2
          (st3, r.2.1, r.2.2.1)

/-- The object handed out by ReactiveStore.abstract for one path: the
closures capture only the stringified base path; the identifier models the
object's reference identity (needed to state that repeated calls return the
identical cached object). -/
structure AbsObj where
  id : Nat
  basePath : String
deriving DecidableEq, Repr

/-- One _pathData entry: the cached token split, the optional mutator
(modelled as a pure value transformer) and the cached abstract object. -/
structure PathData where
  tokens : List String
  mutate : Option (Val → Val)
  abstract : Option AbsObj

/-- The ReactiveStore instance state.  isTrav is the _isTraversable flag;
changeDeps and opCount form _changeData; fired is the log of dep.changed()
calls performed by _watchChanges flushes, in order. -/
structure Store where
  data : Val
  heap : Heap
  isTrav : Bool
  tree : DepTree
  changeDeps : List Nat
  opCount : Nat
  noMutate : Bool
  pathData : List (String × PathData)
  nextDepId : Nat
  nextAbsId : Nat
  fired : List Nat

def Store.diffSt (S : Store) : DiffSt := ⟨S.tree, S.changeDeps⟩

def Store.putDiff (S : Store) (st : DiffSt) : Store :=
  { S with tree := st.tree, changeDeps := st.cds }

/-- The character-level worker of the dot split (String.splitOn in core is
not kernel-reducible, so the split is spelled out structurally). -/
def splitDotChars : List Char → List (List Char)
  | [] => [[]]
  | c :: rest =>
    if c = '.' then [] :: splitDotChars rest
    else
      match splitDotChars rest with
      | [] => [[c]]
      | g :: gs => (c :: g) :: gs

/-- path.split('.') of the source. -/
def splitDot (s : String) : List String :=
  (splitDotChars s.data).map (fun cs => String.mk cs)

/-- ReactiveStore._getPathData: look up the cached entry for a path or
create it with the dot-split token list. -/
def Store.getPathData (S : Store) (path : String) : PathData × Store :=
  match S.pathData.find? (fun e => e.1 == path) with
  | some e => (e.2, S)
  | none =>
    let pd : PathData := ⟨splitDot path, none, none⟩
    (pd, { S with pathData := S.pathData ++ [(path, pd)] })

def setPD (l : List (String × PathData)) (p : String) (pd : PathData) :
    List (String × PathData) :=
  l.map (fun e => if e.1 = p then (p, pd) else e)

/-- ReactiveStore.updateMutators: record a mutator for each listed path. -/
def Store.updateMutators (S : Store) (ms : List (String × (Val → Val))) : Store :=
  ms.foldl
    (fun S e =>
      let r := S.getPathData e.1
      { r.2 with pathData := setPD r.2.pathData e.1 { r.1 with mutate := some e.2 } })
    S

def Heap.setField (h : Heap) (a : Nat) (k : String) (v : Val) : Heap :=
  { h with objs := h.objs.map (fun e =>
      if e.1 = a then
        (a, if e.2.keys.contains k then
              { e.2 with fields := e.2.fields.map (fun f => if f.1 = k then (k, v) else f) }
            else
              { e.2 with fields := e.2.fields ++ [(k, v)] })
      else e) }

def Heap.removeField (h : Heap) (a : Nat) (k : String) : Heap :=
  { h with objs := h.objs.map (fun e =>
      if e.1 = a then (a, { e.2 with fields := e.2.fields.filter (fun f => f.1 ≠ k) })
      else e) }

def Heap.alloc (h : Heap) (o : Obj) : Nat × Heap :=
  (h.next, ⟨h.objs ++ [(h.next, o)], h.next + 1⟩)

def Val.addr? : Val → Option Nat
  | .ref a => some a
  | _ => none

/-- The token walk of ReactiveStore._setAtPath after the mutator and root
coercion have been handled: a is the address of the current container
(search), deps the path whose subDeps object is current (none once the dep
chain broke off), parents the parentDepNodes list. -/
def setAtPathGo (fuel : Nat) (unset : Bool) (value : Val) :
    List String → Nat → Option (List String) → List (List String) → Store →
    Option Store
  | [], _, _, _, S => some S
  | [t], a, deps, parents, S =>
    if !unset || propEnum S.heap (.ref a) t then
      let depNode := subDepAt S.tree deps t
      let oldValue := valAt S.heap (.ref a) t
      let step : Option (Store × Bool) :=
        if unset then
          let S1 := { S with heap := S.heap.removeField a t }
          match depNode with
          | some dn =>
            (triggerAllDeps S1.heap fuel S1.diffSt (some dn) oldValue .undef []).map
              fun r => (S1.putDiff (registerChange r.1 (some dn) .undef), true)
          | none => some (S1, true)
        else
          let S1 := { S with heap := S.heap.setField a t value }
          (triggerChangedDeps S1.heap fuel S1.diffSt depNode oldValue value []).map
            fun r => (S1.putDiff r.1, r.2.2)
      step.map fun r =>
        if r.2 then
          r.1.putDiff (parents.foldl
            (fun st q => registerChange st (some q) .objectCtor) r.1.diffSt)
        else r.1
    else some S
  | t :: rest, a, deps, parents, S =>
    let advance : Option (List String) × List (List String) :=
      match deps with
      | some p =>
        if treeHas S.tree (p ++ [t]) then (some (p ++ [t]), parents ++ [p ++ [t]])
        else (none, parents)
      | none => (none, parents)
    let cur := valAt S.heap (.ref a) t
    if isTraversable S.heap cur then
      setAtPathGo fuel unset value rest (cur.addr?.getD 0) advance.1 advance.2 S
    else if unset then some S
    else
      let al := S.heap.alloc ⟨.object, [], false⟩
      let S1 := { S with heap := (al.2.setField a t (.ref al.1)) }
      setAtPathGo fuel unset value rest al.1 advance.1 advance.2 S1

/-- ReactiveStore._setAtPath: apply the mutator unless suppressed, honour
the CANCEL and DELETE sentinels, coerce a non-traversable root for a set,
then walk the tokens. -/
def Store.setAtPath (fuel : Nat) (S : Store) (path : String) (value : Val) :
    Option Store :=
  let r := S.getPathData path
  let value := if !r.2.noMutate then
      match r.1.mutate with
      | some f => f value
      | none => value
    else value
  if value = .sCANCEL then some r.2
  else
    let unset := value = .sDELETE
    if !r.2.isTrav then
      if unset then some r.2
      else
        let al := r.2.heap.alloc ⟨.object, [], false⟩
        let S1 := { r.2 with isTrav := true, data := .ref al.1, heap := al.2 }
        setAtPathGo fuel unset value r.1.tokens al.1 (some []) [[]] S1
    else
      match S.data.addr? with
      | some a => setAtPathGo fuel unset value r.1.tokens a (some []) [[]] r.2
      | none => some r.2

/-- ReactiveStore._watchChanges: bump the operation counter around op and,
when the counter is back at zero, fire every accumulated dependency once
and clear the accumulator. -/
def Store.watchChanges (S : Store) (op : Store → Option Store) : Option Store :=
  let S0 := { S with opCount := S.opCount + 1 }
  (op S0).map fun S1 =>
    let S2 := { S1 with opCount := S1.opCount - 1 }
    if S2.opCount == 0 && !S2.changeDeps.isEmpty then
      { S2 with fired := S2.fired ++ S2.changeDeps, changeDeps := [] }
    else S2

/-- ReactiveStore.set: replace the root value and diff old against new at
the root dependency node inside one batch. -/
def Store.set (fuel : Nat) (S : Store) (value : Val) : Option Store :=
  let oldValue := S.data
  let S1 := { S with isTrav := isTraversable S.heap value, data := value }
  S1.watchChanges fun S2 =>
    (triggerChangedDeps S2.heap fuel S2.diffSt (some []) oldValue value []).map
      fun r => S2.putDiff r.1

/-- ReactiveStore.assign: set every path of the path-to-value map inside
one batch (the single-path call is the singleton map). -/
def Store.assign (fuel : Nat) (S : Store) (pathValueMap : List (String × Val)) :
    Option Store :=
  S.watchChanges fun S1 =>
    pathValueMap.foldl (fun acc e => acc.bind fun S2 => S2.setAtPath fuel e.1 e.2)
      (some S1)

/-- ReactiveStore.delete: only when the root is traversable, unset every
listed path inside one batch. -/
def Store.delete (fuel : Nat) (S : Store) (paths : List String) : Option Store :=
  if S.isTrav then
    S.watchChanges fun S1 =>
      paths.foldl (fun acc p => acc.bind fun S2 => S2.setAtPath fuel p .sDELETE)
        (some S1)
  else some S

/-- ReactiveStore.clear: replace a traversable root by a fresh empty
instance of its constructor, a non-traversable root by undefined; in both
cases through set. -/
def Store.clear (fuel : Nat) (S : Store) : Option Store :=
  if S.isTrav then
    let kind := match S.heap.objAt S.data with
      | some o => o.kind
      | none => .object
    let al := S.heap.alloc ⟨kind, [], false⟩
    Store.set fuel { S with heap := al.2 } (.ref al.1)
  else Store.set fuel S Val.undef

/-- The token walk of ReactiveStore._findProperty: when reactive, dep nodes
are ensured along the way; the value is traversed in tandem, becoming
undefined (with an early break in the non-reactive case) once the walk
leaves the traversable part of the value. -/
def findPropertyGo (h : Heap) (reactive : Bool) :
    List String → DepTree → List String → Val → DepTree × List String × Val
  | [], tree, dpath, value => (tree, dpath, value)
  | token :: rest, tree, dpath, value =>
    let tree1 := if reactive then ensureDepNode tree (dpath ++ [token]) else tree
    let dpath1 := if reactive then dpath ++ [token] else dpath
    if value ≠ .undef then
      if isTraversable h value && propEnum h value token then
        findPropertyGo h reactive rest tree1 dpath1 (valAt h value token)
      else if reactive then
        findPropertyGo h reactive rest tree1 dpath1 .undef
      else (tree1, dpath1, .undef)
    else findPropertyGo h reactive rest tree1 dpath1 value

/-- ReactiveStore._findProperty: resolve a path (none is the ROOT sentinel)
to its dependency-node path and current value. -/
def Store.findProperty (S : Store) (reactive : Bool) (path : Option String) :
    Store × List String × Val :=
  match path with
  | none => (S, [], S.data)
  | some p =>
    let r := S.getPathData p
    let w := findPropertyGo r.2.heap reactive r.1.tokens r.2.tree [] r.2.data
    ({ r.2 with tree := w.1 }, w.2.1, w.2.2)

/-- ReactiveStore.get: resolve the path and, when a reactive computation is
active, ensure the node's dep exists and depend on it. -/
def Store.get (S : Store) (tracker : Bool) (path : Option String) : Val × Store :=
  let r := S.findProperty tracker path
  if tracker then
    match treeGet r.1.tree r.2.1 with
    | some nd =>
      match nd.dep with
      | some _ => (r.2.2, r.1)
      | none =>
        (r.2.2, { r.1 with
          tree := treeSet r.1.tree r.2.1 { nd with dep := some r.1.nextDepId }
          nextDepId := r.1.nextDepId + 1 })
    | none => (r.2.2, r.1)
  else (r.2.2, r.1)

/-- The error text thrown by ReactiveStore.equals for a non-primitive
comparison value. -/
def eqErrMsg : String :=
  "ReactiveStore: Only primitive values can be registered as equality dependencies (number, string, boolean, undefined, null, symbol)."

/-- ReactiveStore.equals: throw for any comparison value that is an
instance of Object; otherwise resolve the path, compute the verdict and,
when reactive, ensure the equality dependency and its active marking. -/
def Store.equals (S : Store) (tracker : Bool) (path : Option String) (value : Val) :
    Except String Bool × Store :=
  if instanceOfObject value then (.error eqErrMsg, S)
  else
    let r := S.findProperty tracker path
    let isEqual := r.2.2 = value
    if tracker then
      match treeGet r.1.tree r.2.1 with
      | some nd =>
        let m0 := nd.eqDepMap.getD []
        match mapGet m0 value with
        | some e =>
          let nd1 := { nd with
            eqDepMap := some m0
            activeEqDep := if isEqual then some e else nd.activeEqDep }
          (.ok isEqual, { r.1 with tree := treeSet r.1.tree r.2.1 nd1 })
        | none =>
          let e := r.1.nextDepId
          let nd1 := { nd with
            eqDepMap := some (m0 ++ [(value, e)])
            activeEqDep := if isEqual then some e else nd.activeEqDep }
          (.ok isEqual, { r.1 with
            tree := treeSet r.1.tree r.2.1 nd1
            nextDepId := r.1.nextDepId + 1 })
      | none => (.ok isEqual, r.1)
    else (.ok isEqual, r.1)

/-- The method names of the object literal created by ReactiveStore.abstract. -/
def absMethodNames : List String := ["get", "equals", "set", "delete"]

/-- ReactiveStore.abstract: return the cached path object, creating and
caching it on first request. -/
def Store.abstract (S : Store) (path : String) : AbsObj × Store :=
  let r := S.getPathData path
  match r.1.abstract with
  | some o => (o, r.2)
  | none =>
    let o : AbsObj := ⟨r.2.nextAbsId, path⟩
    (o, { r.2 with
      pathData := setPD r.2.pathData path { r.1 with abstract := some o }
      nextAbsId := r.2.nextAbsId + 1 })

/-- The get closure of the abstract object: () => this.get(path). -/
def AbsObj.get (o : AbsObj) (S : Store) (tracker : Bool) : Val × Store :=
  S.get tracker (some o.basePath)

/-- The equals closure of the abstract object: val => this.equals(path, val). -/
def AbsObj.equals (o : AbsObj) (S : Store) (tracker : Bool) (v : Val) :
    Except String Bool × Store :=
  S.equals tracker (some o.basePath) v

/-- The set closure of the abstract object: val => this.assign(path, val). -/
def AbsObj.set (o : AbsObj) (fuel : Nat) (S : Store) (v : Val) : Option Store :=
  S.assign fuel [(o.basePath, v)]

/-- The delete closure of the abstract object: () => this.delete(path). -/
def AbsObj.delete (o : AbsObj) (fuel : Nat) (S : Store) : Option Store :=
  S.delete fuel [o.basePath]

/-- A fresh store as the constructor builds it from an initial value and
heap: root dep node ensured, empty change data, counters started above the
identifiers already used in the given dependency tree. -/
def mkStore (h : Heap) (data : Val) (tree : DepTree) (nextDepId : Nat) : Store :=
  { data := data, heap := h, isTrav := isTraversable h data,
    tree := ensureDepNode tree [], changeDeps := [], opCount := 0,
    noMutate := false, pathData := [], nextDepId := nextDepId,
    nextAbsId := 0, fired := [] }

/-- The shape of the work performed inside a _watchChanges scope, seen by
the Change Batch Coordinator: an atomic change registration (one
changedDepSet.add performed by _registerChange) or a nested _watchChanges
scope (a write started from inside the operation, e.g. by a mutator). -/
inductive WriteStep where
  | reg (d : Nat)
  | nested (steps : List WriteStep)

/-- The coordinator state: the accumulated dependency set _changeData.deps,
the operation counter _changeData.opCount, and the log of dep.changed()
notifications performed by flushes. -/
structure CoordState where
  deps : List Nat
  opCount : Nat
  fired : List Nat
deriving DecidableEq, Repr

/-- Run a sequence of write steps against the coordinator.  A nested scope
follows _watchChanges exactly: increment the counter, run the body,
decrement, and flush (fire every accumulated dep once and clear the set)
only when the counter is back at zero. -/
def runSteps : List WriteStep → CoordState → CoordState
  | [], st => st
  | .reg d :: rest, st => runSteps rest { st with deps := addToSet st.deps d }
  | .nested inner :: rest, st =>
    let st1 := runSteps inner { st with opCount := st.opCount + 1 }
    let st2 := { st1 with opCount := st1.opCount - 1 }
    runSteps rest
      (if st2.opCount == 0 && !st2.deps.isEmpty then
        { st2 with fired := st2.fired ++ st2.deps, deps := [] }
      else st2)

/-- One outermost write operation: its steps wrapped in one _watchChanges
scope. -/
def watchChangesOp (steps : List WriteStep) (st : CoordState) : CoordState :=
  runSteps [.nested steps] st

/-- Whether the token path exists in the value tree below container address
a, with the reachability conditions the _setAtPath unset walk checks:
every intermediate value traversable, the final key enumerable. -/
def existsAtPath (h : Heap) (a : Nat) : List String → Bool
  | [] => false
  | [t] => propEnum h (.ref a) t
  | t :: rest =>
    isTraversable h (valAt h (.ref a) t) &&
      existsAtPath h ((valAt h (.ref a) t).addr?.getD 0) rest

/-- The container addresses visited by the _setAtPath token walk (search
starts at a and follows one value lookup per non-final token). -/
def routeAddrs (h : Heap) (a : Nat) : List String → List Nat
  | [] => [a]
  | [_] => [a]
  | t :: rest => a :: routeAddrs h ((valAt h (.ref a) t).addr?.getD 0) rest

/-- All dependency identifiers a node's data can ever contribute to the
change set: its dep, its equality deps and its active equality dep. -/
def nodeIds (nd : NodeData) : List Nat :=
  nd.dep.toList ++ (nd.eqDepMap.getD []).map (·.2) ++ nd.activeEqDep.toList

/-- Everything in a store except the _pathData cache (used to state that
an operation affects at most the path cache). -/
def Store.core (S : Store) :
    Val × Heap × Bool × DepTree × List Nat × Nat × Bool × Nat × Nat × List Nat :=
  (S.data, S.heap, S.isTrav, S.tree, S.changeDeps, S.opCount, S.noMutate,
    S.nextDepId, S.nextAbsId, S.fired)

def Heap.dom (h : Heap) : List Nat := h.objs.map (·.1)

/-- The mutator registered for a path, as _setAtPath reads it. -/
def Store.mutatorOf (S : Store) (p : String) : Option (Val → Val) :=
  ((S.getPathData p).1).mutate

/-- The abstract-cache wellformedness invariant the implementation
maintains: a cached abstract object stores the path it was cached under. -/
def absWF (S : Store) : Prop :=
  ∀ e ∈ S.pathData, ∀ o, e.2.abstract = some o → o.basePath = e.1

/- Concrete fixtures used by witnesses and counterexamples. -/

/-- A heap with a plain object root at 0 holding one field and a function
object at 3. -/
def exFnHeap : Heap := ⟨[(0, ⟨.object, [], false⟩), (3, ⟨.func, [], false⟩)], 4⟩

def exFnStore : Store := mkStore exFnHeap (.ref 0) [] 10

/-- Heap for the diff counterexample: old value at 0 is an object with one
key x, new value at 1 agrees on x and adds one extra key y set to
undefined. -/
def exDiffHeap : Heap :=
  ⟨[(0, ⟨.object, [("x", .num 1)], false⟩),
    (1, ⟨.object, [("x", .num 1), ("y", .undef)], false⟩)], 2⟩

def exDiffSt : DiffSt :=
  ⟨[([], ⟨some 0, none, none⟩), (["p"], ⟨some 7, none, none⟩)], []⟩

/-- Store with root at 0 being the empty object and a second object at 5,
with a root dep and a subscriber dep 7 on path a. -/
def exAsgHeap : Heap :=
  ⟨[(0, ⟨.object, [], false⟩), (5, ⟨.object, [("z", .num 1)], false⟩)], 6⟩

def exAsgStore : Store :=
  mkStore exAsgHeap (.ref 0)
    [([], ⟨some 1, none, none⟩), (["a"], ⟨some 7, none, none⟩)] 10

/-- Store with root at 0 holding a at 1 with one field b, and dependency
nodes for the root, a, a.x, a.x.y and a sibling path d. -/
def exDelHeap : Heap :=
  ⟨[(0, ⟨.object, [("a", .ref 1)], false⟩), (1, ⟨.object, [("b", .num 1)], false⟩)], 2⟩

def exDelStore : Store :=
  mkStore exDelHeap (.ref 0)
    [([], ⟨some 1, none, none⟩), (["a"], ⟨some 2, none, none⟩),
     (["a", "x"], ⟨some 4, none, none⟩), (["a", "x", "y"], ⟨some 5, none, none⟩),
     (["d"], ⟨some 8, none, none⟩)] 10

/-- Store whose heap holds a self-referential object at 1 (a value that
contains itself) besides the plain root at 0. -/
def exCycHeap : Heap :=
  ⟨[(0, ⟨.object, [("x", .num 1)], false⟩), (1, ⟨.object, [("self", .ref 1)], false⟩)], 2⟩

def exCycStore : Store := mkStore exCycHeap (.ref 0) [([], ⟨some 1, none, none⟩)] 10

/-- Store whose root at 0 is itself a self-referential object, with a second
self-referential object at 1 sharing the same key, for the cycle-safety
witness: setting the root to the value at 1 makes the diff revisit a seen
reference. -/
def exCyc2Heap : Heap :=
  ⟨[(0, ⟨.object, [("self", .ref 0)], false⟩),
    (1, ⟨.object, [("self", .ref 1)], false⟩)], 2⟩

def exCyc2Store : Store := mkStore exCyc2Heap (.ref 0) [([], ⟨some 1, none, none⟩)] 10

/-- Store with an array root, for the clear witness. -/
def exArrStore : Store :=
  mkStore ⟨[(0, ⟨.array, [("0", .num 1)], false⟩)], 1⟩ (.ref 0) [] 10

/-- Store whose root object is shallow-marked, for the clear witness. -/
def exShallowStore : Store :=
  mkStore ⟨[(0, ⟨.object, [("x", .num 1)], true⟩)], 1⟩ (.ref 0) [] 10

/-- Store with a cancel mutator registered on path a. -/
def exCancelStore : Store :=
  (mkStore exDelHeap (.ref 0)
    [([], ⟨some 1, none, none⟩), (["a"], ⟨some 2, none, none⟩)] 10).updateMutators
    [("a", fun _ => .sCANCEL)]

/-- How one dependency-trigger step may extend a DiffSt: the change set
grows only by appending identifiers that belong (as dep, equality dep or
active equality dep) to a tree node whose path satisfies P; duplicate
freedom is preserved; the tree keeps its paths and every node keeps its
dep, while its identifier pool can only shrink (activeEqDep moves within
the equality map). -/
def DiffExt (P : List String → Prop) (st st2 : DiffSt) : Prop :=
  (∃ e, st2.cds = st.cds ++ e ∧
    ∀ d ∈ e, ∃ q nd, P q ∧ treeGet st.tree q = some nd ∧ d ∈ nodeIds nd) ∧
  (st.cds.Nodup → st2.cds.Nodup) ∧
  (st2.tree.map Prod.fst = st.tree.map Prod.fst) ∧
  (∀ q nd2, treeGet st2.tree q = some nd2 →
    ∃ nd1, treeGet st.tree q = some nd1 ∧ nd2.dep = nd1.dep ∧
      ∀ d ∈ nodeIds nd2, d ∈ nodeIds nd1)

/- ------------------------------------------------------------------ -/
/- Helper lemmas.                                                      -/
/- ------------------------------------------------------------------ -/

theorem addToSet_mem_self (l : List Nat) (x : Nat) : x ∈ addToSet l x := by
  unfold addToSet
  split
  · assumption
  · simp

theorem addToSet_mem_mono (l : List Nat) (x y : Nat) (hx : x ∈ l) :
    x ∈ addToSet l y := by
  unfold addToSet
  split
  · assumption
  · simp [hx]

theorem addToSet_ext (l : List Nat) (x : Nat) :
    ∃ e, addToSet l x = l ++ e := by
  unfold addToSet
  split
  · exact ⟨[], by simp⟩
  · exact ⟨[x], rfl⟩

theorem addToSet_nodup (l : List Nat) (x : Nat) (hl : l.Nodup) :
    (addToSet l x).Nodup := by
  unfold addToSet
  split
  · exact hl
  · exact List.Nodup.append hl (List.nodup_singleton x)
      (by simpa using fun hx => by simp_all)

/-- A fold whose step fixes the initial accumulator on every element of the
list leaves the accumulator unchanged. -/
theorem foldl_fixed_of {α β : Type} (f : α → β → α) (init : α) (l : List β)
    (hf : ∀ b ∈ l, f init b = init) : l.foldl f init = init := by
  induction l with
  | nil => rfl
  | cons b rest ih =>
    simp only [List.foldl_cons, hf b (by simp)]
    exact ih (fun c hc => hf c (by simp [hc]))

theorem processNewKeys_changed_true (h : Heap) (v : Val) (subT : Bool)
    (ks : List String) (s : Bool × List String) (hs : s.1 = true) :
    (processNewKeys h v subT ks s).1 = true := by
  induction ks generalizing s with
  | nil => simpa [processNewKeys] using hs
  | cons k rest ih =>
    obtain ⟨c, keySet⟩ := s
    subst hs
    simp only [processNewKeys, Bool.not_true, Bool.false_and, Bool.false_eq_true,
      if_false]
    split
    · exact ih (true, keySet) rfl
    · exact ih (true, keySet ++ [k]) rfl

theorem childKeys_of_treeHas (t : DepTree) (p : List String) (k : String)
    (hh : treeHas t (p ++ [k]) = true) : k ∈ childKeys t p := by
  unfold treeHas at hh
  rw [List.any_eq_true] at hh
  obtain ⟨e, he, heq⟩ := hh
  rw [beq_iff_eq] at heq
  unfold childKeys
  rw [List.mem_filterMap]
  refine ⟨e, he, ?_⟩
  rw [heq]
  simp

theorem seenHas_nil (v : Val) : seenHas [] v = false := by
  cases v <;> rfl

theorem isTraversable_ref (h : Heap) (v : Val) (ht : isTraversable h v = true) :
    ∃ a o, v = .ref a ∧ h.lookup a = some o ∧ o.shallow = false ∧
      (o.kind = .object ∨ o.kind = .array) := by
  cases v
  case ref a =>
    cases hl : h.lookup a with
    | none => simp [isTraversable, isObject, isArray, Heap.objAt, hl] at ht
    | some o =>
      simp only [isTraversable, isObject, isArray, Heap.objAt, hl, Option.map_some',
        Option.getD_some, Bool.and_eq_true, Bool.or_eq_true, beq_iff_eq,
        Bool.not_eq_true'] at ht
      exact ⟨a, o, rfl, hl, ht.2, ht.1⟩
  all_goals simp [isTraversable, isObject, isArray, Heap.objAt] at ht

theorem instanceOfObject_of_traversable (h : Heap) (v : Val)
    (ht : isTraversable h v = true) : instanceOfObject v = true := by
  obtain ⟨a, o, rfl, _⟩ := isTraversable_ref h v ht
  rfl

theorem optAdd_mem_mono (l : List Nat) (o : Option Nat) (d : Nat) (h : d ∈ l) :
    d ∈ optAdd l o := by
  cases o with
  | none => exact h
  | some x => exact addToSet_mem_mono _ _ _ h

theorem registerChange_dep_mem (st : DiffSt) (p : List String) (nd : NodeData)
    (d : Nat) (v : Val) (hg : treeGet st.tree p = some nd) (hd : nd.dep = some d) :
    d ∈ (registerChange st (some p) v).cds := by
  simp only [registerChange, hg, hd]
  split
  · exact addToSet_mem_self _ _
  · split
    · exact optAdd_mem_mono _ _ _ (optAdd_mem_mono _ _ _ (addToSet_mem_self _ _))
    · exact addToSet_mem_self _ _

/- ------------------------------------------------------------------ -/
/- Claim theorems.                                                     -/
/- ------------------------------------------------------------------ -/

theorem findPropertyGo_tree_nonreactive (h : Heap) (toks : List String)
    (tree : DepTree) (dpath : List String) (v : Val) :
    (findPropertyGo h false toks tree dpath v).1 = tree := by
  induction toks generalizing v with
  | nil => rfl
  | cons t rest ih =>
    simp only [findPropertyGo, Bool.false_eq_true, if_false]
    split
    · split
      · exact ih _
      · rfl
    · exact ih _

theorem getPathData_tree (S : Store) (p : String) :
    (S.getPathData p).2.tree = S.tree := by
  unfold Store.getPathData
  split <;> rfl

theorem findProperty_tree_nonreactive (S : Store) (p : Option String) :
    (S.findProperty false p).1.tree = S.tree := by
  unfold Store.findProperty
  cases p with
  | none => rfl
  | some s =>
    simp only
    rw [findPropertyGo_tree_nonreactive]
    exact getPathData_tree S s

/-- C10: with no reactive computation active, get and equals leave the
dependency tree (nodes, value subscriptions, equality-subscription entries
and active-entry markings) completely unchanged. -/
theorem C10_nonreactive_reads_leave_deps (S : Store) (p : Option String) (v : Val) :
    ((S.get false p).2).tree = S.tree ∧ ((S.equals false p v).2).tree = S.tree := by
  constructor
  · unfold Store.get
    simp only [Bool.false_eq_true, if_false]
    exact findProperty_tree_nonreactive S p
  · unfold Store.equals
    split
    · rfl
    · simp only [Bool.false_eq_true, if_false]
      exact findProperty_tree_nonreactive S p

/-- C1 counterexample: equals called with a function reference raises the
usage error instead of returning an equality verdict (a function is an
instance of Object, so the primitive check rejects it). -/
theorem C1_counterexample_function_raises :
    exFnStore.equals false (some "a") (.ref 3) = (Except.error eqErrMsg, exFnStore) ∧
    exFnHeap.lookup 3 = some ⟨.func, [], false⟩ := by
  exact ⟨rfl, rfl⟩

/-- C1 amended: equals raises the usage error, leaving the store state
untouched, exactly when the compare value is an instance of Object (which
includes function references); for every non-Object value it returns the
equality verdict without raising. -/
theorem C1_equals_primitive_only (S : Store) (tracker : Bool) (p : Option String)
    (v : Val) :
    (instanceOfObject v = true → S.equals tracker p v = (Except.error eqErrMsg, S)) ∧
    (instanceOfObject v = false → ∃ S2, S.equals tracker p v =
      (Except.ok (decide ((S.findProperty tracker p).2.2 = v)), S2)) := by
  constructor
  · intro hio
    unfold Store.equals
    rw [if_pos hio]
  · intro hio
    unfold Store.equals
    rw [if_neg (by simp [hio])]
    dsimp only
    split
    · split
      · split <;> exact ⟨_, rfl⟩
      · exact ⟨_, rfl⟩
    · exact ⟨_, rfl⟩

theorem C1_equals_primitive_only_witness :
    instanceOfObject (Val.ref 3) = true ∧
    exFnStore.equals false (some "a") (.ref 3) = (Except.error eqErrMsg, exFnStore) := by
  exact ⟨rfl, (C1_equals_primitive_only exFnStore false (some "a") (.ref 3)).1 rfl⟩

/-- C2 counterexample: old value an object with key x, new value agreeing on
x but with one extra key y set to undefined; the diff reports changed (the
key counts differ) and registers the node's dep 7, contrary to the claim
that the node is unchanged and nothing is notified. -/
theorem C2_counterexample_extra_undefined_key :
    (triggerChangedDeps exDiffHeap 5 exDiffSt (some ["p"]) (.ref 0) (.ref 1) []).map
      (fun r => (r.2.2, r.1.cds)) = some (true, [7]) := by decide

/-- C2 amended: when the new traversable value agrees with the old one on
all old keys but has one extra key set to undefined, the differing key
count makes the diff report the node as changed immediately (the
undefined-new-key exemption sits after the key-count check and cannot
prevent it), and a notification is registered for the node. -/
theorem C2_extra_undefined_key_reports_changed
    (h : Heap) (st : DiffSt) (p : List String) (nd : NodeData) (d : Nat)
    (oldV newV : Val) (k : String) (fuel : Nat)
    (hto : isTraversable h oldV = true) (htn : isTraversable h newV = true)
    (hkeys : objKeys h newV = objKeys h oldV ++ [k])
    (hkundef : valAt h newV k = .undef)
    (hagree : ∀ key ∈ objKeys h oldV, valAt h oldV key = valAt h newV key)
    (hknotold : ¬ k ∈ objKeys h oldV)
    (hnd : treeGet st.tree p = some nd) (hdep : nd.dep = some d)
    (hleaf : ∀ key, treeHas st.tree (p ++ [key]) = false) :
    ∃ st2 seen2, triggerChangedDeps h (fuel + 1) st (some p) oldV newV [] =
      some (st2, seen2, true) ∧ d ∈ st2.cds := by
  have hio : instanceOfObject oldV = true := instanceOfObject_of_traversable h oldV hto
  have hne : oldV ≠ newV := by
    intro he
    rw [he] at hkeys
    have hlen := congrArg List.length hkeys
    simp at hlen
  have hlen : ((objKeys h oldV).length != (objKeys h newV).length) = true := by
    rw [hkeys]
    simp
  simp only [triggerChangedDeps, hio, if_true, if_neg hne, hto, Option.isSome_some,
    seenHas_nil, Bool.or_false, Bool.false_eq_true, if_false, htn, hlen,
    Bool.or_true, Bool.not_true, Bool.false_or, if_true]
  have hpr1 : (processNewKeys h newV true (objKeys h newV) (true, objKeys h oldV)).1 = true :=
    processNewKeys_changed_true _ _ _ _ _ rfl
  rw [hpr1]
  rw [foldl_fixed_of _ _ _ ?steps]
  case steps =>
    intro key hk
    have hsd : subDepAt st.tree (some p) key = none := by
      simp only [subDepAt, hleaf key, Bool.false_eq_true, if_false]
    simp [hsd]
  refine ⟨registerChange st (some p) newV, seenAdd (seenAdd [] oldV) newV, ?_, ?_⟩
  · simp
  · exact registerChange_dep_mem st p nd d newV hnd hdep

theorem C2_extra_undefined_key_reports_changed_witness :
    ∃ st2 seen2, triggerChangedDeps exDiffHeap 5 exDiffSt (some ["p"])
      (.ref 0) (.ref 1) [] = some (st2, seen2, true) ∧ 7 ∈ st2.cds := by
  exact C2_extra_undefined_key_reports_changed exDiffHeap exDiffSt ["p"]
    ⟨some 7, none, none⟩ 7 (.ref 0) (.ref 1) "y" 4
    (by decide) (by decide) (by decide) (by decide) (by decide) (by decide)
    (by decide) (by decide)
    (by intro key; simp [treeHas, exDiffSt])

theorem runSteps_opCount (l : List WriteStep) (st : CoordState) :
    (runSteps l st).opCount = st.opCount := by
  induction l, st using runSteps.induct
  case case1 st => simp [runSteps]
  case case2 d rest st ih => simpa only [runSteps] using ih
  case case3 inner rest st st1 st2 ih ihrest =>
    have hst1 : st1.opCount = st.opCount + 1 := ih
    simp only [dite_eq_ite] at ihrest
    unfold_let st2 st1 at ihrest
    unfold_let st1 at hst1
    simp only [runSteps]
    rw [ihrest]
    split <;> simp <;> omega

theorem runSteps_fired_of_pos (l : List WriteStep) (st : CoordState) :
    1 ≤ st.opCount → (runSteps l st).fired = st.fired := by
  induction l, st using runSteps.induct
  case case1 st => intro _; simp [runSteps]
  case case2 d rest st ih => intro h; simpa only [runSteps] using ih h
  case case3 inner rest st st1 st2 ih ihrest =>
    intro hpos
    have hin : (runSteps inner { st with opCount := st.opCount + 1 }).opCount
        = st.opCount + 1 := runSteps_opCount _ _
    simp only [dite_eq_ite] at ihrest
    unfold_let st2 st1 at ihrest
    simp only [runSteps]
    have hcond : ¬ (((runSteps inner { st with opCount := st.opCount + 1 }).opCount - 1 == 0 &&
        !(runSteps inner { st with opCount := st.opCount + 1 }).deps.isEmpty) = true) := by
      simp only [hin, Bool.and_eq_true, beq_iff_eq, not_and]
      intro hz
      omega
    rw [if_neg hcond]
    rw [if_neg hcond] at ihrest
    rw [ihrest (by simp only [hin]; omega)]
    simpa using ih (by simp)

theorem runSteps_deps_nodup (l : List WriteStep) (st : CoordState) :
    st.deps.Nodup → (runSteps l st).deps.Nodup := by
  induction l, st using runSteps.induct
  case case1 st => intro h; simpa [runSteps] using h
  case case2 d rest st ih =>
    intro h
    simp only [runSteps]
    apply ih
    show (addToSet st.deps d).Nodup
    unfold addToSet
    split
    · exact h
    · exact List.Nodup.append h (List.nodup_singleton d)
        (by simpa using fun hx => by simp_all)
  case case3 inner rest st st1 st2 ih ihrest =>
    intro h
    simp only [dite_eq_ite] at ihrest
    unfold_let st2 st1 at ihrest
    simp only [runSteps]
    apply ihrest
    split
    · exact List.nodup_nil
    · exact ih h

/-- C4: one outermost write operation (arbitrary registrations and nested
_watchChanges scopes, e.g. writes started by mutators): nothing is fired
while the operation counter is positive, the flush performed when the
counter returns to zero fires exactly the accumulated set (duplicate-free,
so each accumulated dependency exactly once), and clears the accumulator. -/
theorem C4_batch_coordinator (steps : List WriteStep) (st : CoordState)
    (h0 : st.opCount = 0) (hd : st.deps.Nodup) :
    ((watchChangesOp steps st).fired =
        st.fired ++ (runSteps steps { st with opCount := st.opCount + 1 }).deps) ∧
    (runSteps steps { st with opCount := st.opCount + 1 }).deps.Nodup ∧
    (watchChangesOp steps st).deps = [] ∧
    (∀ (l : List WriteStep) (s : CoordState), 1 ≤ s.opCount →
      (runSteps l s).fired = s.fired) := by
  have hmidfired : (runSteps steps { st with opCount := st.opCount + 1 }).fired
      = st.fired := runSteps_fired_of_pos _ _ (by simp)
  have hmidop : (runSteps steps { st with opCount := st.opCount + 1 }).opCount
      = st.opCount + 1 := runSteps_opCount _ _
  refine ⟨?_, runSteps_deps_nodup _ _ hd, ?_, fun l s h => runSteps_fired_of_pos l s h⟩
  all_goals
    simp only [h0, Nat.zero_add] at hmidfired hmidop
    simp only [watchChangesOp, runSteps, h0, Nat.zero_add]
    by_cases hdeps : (runSteps steps { st with opCount := 1 }).deps = [] <;>
      simp [hdeps, hmidfired, hmidop]

theorem C4_batch_coordinator_witness :
    (0 : Nat) = 0 ∧
    ((watchChangesOp [.reg 1, .nested [.reg 2, .reg 1]] ⟨[], 0, []⟩).fired =
        [] ++ (runSteps [.reg 1, .nested [.reg 2, .reg 1]] ⟨[], 0 + 1, []⟩).deps ∧
      (runSteps [.reg 1, .nested [.reg 2, .reg 1]] ⟨[], 0 + 1, []⟩).deps.Nodup ∧
      (watchChangesOp [.reg 1, .nested [.reg 2, .reg 1]] ⟨[], 0, []⟩).deps = [] ∧
      (∀ (l : List WriteStep) (s : CoordState), 1 ≤ s.opCount →
        (runSteps l s).fired = s.fired)) := by
  exact ⟨rfl, C4_batch_coordinator [.reg 1, .nested [.reg 2, .reg 1]] ⟨[], 0, []⟩
    rfl List.nodup_nil⟩

theorem find?_append_right {α : Type} (p : α → Bool) (l1 l2 : List α)
    (h : ∀ x ∈ l1, p x = false) : (l1 ++ l2).find? p = l2.find? p := by
  induction l1 with
  | nil => rfl
  | cons a rest ih =>
    rw [List.cons_append, List.find?_cons_of_neg _ (by simp [h a (by simp)]),
      ih (fun x hx => h x (by simp [hx]))]

theorem alloc_lookup (h : Heap) (o : Obj) (hdom : ∀ e ∈ h.objs, e.1 < h.next) :
    (h.alloc o).2.lookup (h.alloc o).1 = some o := by
  unfold Heap.alloc Heap.lookup
  simp only
  rw [find?_append_right _ _ _ (fun x hx => by
    have := hdom x hx
    simp only [beq_eq_false_iff_ne, ne_eq]
    omega)]
  simp

theorem set_parts (fuel : Nat) (S : Store) (v : Val) (S2 : Store)
    (hs : Store.set fuel S v = some S2) :
    S2.data = v ∧ S2.heap = S.heap ∧ S2.isTrav = isTraversable S.heap v ∧
    S2.pathData = S.pathData := by
  unfold Store.set Store.watchChanges at hs
  rw [Option.map_eq_some'] at hs
  obtain ⟨S1, h1, hflush⟩ := hs
  rw [Option.map_eq_some'] at h1
  obtain ⟨r, hr, hput⟩ := h1
  subst hput
  subst hflush
  dsimp only [Store.putDiff, Store.diffSt]
  split <;> simp

/-- C8: clear on a traversable root replaces it, through set, with a fresh
empty instance of the root's constructor (object stays mapping, array stays
sequence; a shallow-marked root counts as non-traversable via the flag);
a non-traversable root is replaced with undefined, also through set. -/
theorem C8_clear (fuel : Nat) (S : Store) (S2 : Store)
    (hwf : S.isTrav = isTraversable S.heap S.data)
    (hdom : ∀ e ∈ S.heap.objs, e.1 < S.heap.next)
    (hc : S.clear fuel = some S2) :
    (S.isTrav = true → ∃ o, S.heap.objAt S.data = some o ∧
      (o.kind = .object ∨ o.kind = .array) ∧
      S2.data = .ref S.heap.next ∧
      S2.heap.lookup S.heap.next = some ⟨o.kind, [], false⟩ ∧
      S.clear fuel = Store.set fuel
        { S with heap := (S.heap.alloc ⟨o.kind, [], false⟩).2 } (.ref S.heap.next)) ∧
    (S.isTrav = false → S2.data = .undef ∧
      S.clear fuel = Store.set fuel S .undef) := by
  constructor
  · intro htr
    have htrav : isTraversable S.heap S.data = true := by rw [← hwf]; exact htr
    obtain ⟨a0, o, hdata, hl, hsh, hkind⟩ := isTraversable_ref S.heap S.data htrav
    have hobj : S.heap.objAt S.data = some o := by rw [hdata]; exact hl
    unfold Store.clear at hc ⊢
    rw [if_pos htr] at hc ⊢
    rw [hobj] at hc
    refine ⟨o, hobj, hkind, ?_, ?_, ?_⟩
    · exact (set_parts _ _ _ _ hc).1
    · rw [(set_parts _ _ _ _ hc).2.1]
      exact alloc_lookup S.heap ⟨o.kind, [], false⟩ hdom
    · rw [hobj]
      rfl
  · intro hf
    unfold Store.clear at hc ⊢
    rw [if_neg (by simp [hf])] at hc ⊢
    exact ⟨(set_parts _ _ _ _ hc).1, rfl⟩

theorem C8_clear_witness :
    ∃ S2, exArrStore.clear 9 = some S2 ∧ S2.data = .ref exArrStore.heap.next ∧
      S2.heap.lookup exArrStore.heap.next = some ⟨.array, [], false⟩ := by
  have hc : (exArrStore.clear 9).isSome = true := by decide
  obtain ⟨S2, hS2⟩ := Option.isSome_iff_exists.mp hc
  obtain ⟨o, hobj, _, hdata, hlook, _⟩ :=
    (C8_clear 9 exArrStore S2 (by decide) (by decide) hS2).1 (by decide)
  have ho : o = ⟨.array, [("0", Val.num 1)], false⟩ := by
    have hv : exArrStore.heap.objAt exArrStore.data
        = some ⟨.array, [("0", Val.num 1)], false⟩ := by decide
    rw [hv] at hobj
    exact (Option.some.inj hobj).symm
  exact ⟨S2, hS2, hdata, by rw [hlook, ho]⟩

theorem find?_setPD (l : List (String × PathData)) (p : String) (pd : PathData)
    (e : String × PathData) (hf : l.find? (fun x => x.1 == p) = some e) :
    (setPD l p pd).find? (fun x => x.1 == p) = some (p, pd) := by
  induction l with
  | nil => simp at hf
  | cons x rest ih =>
    by_cases hx : x.1 = p
    · unfold setPD
      rw [List.map_cons, if_pos hx, List.find?_cons_of_pos _ (by simp)]
    · rw [List.find?_cons_of_neg _ (by simp [hx])] at hf
      unfold setPD
      rw [List.map_cons, if_neg hx, List.find?_cons_of_neg _ (by simp [hx])]
      exact ih hf

/-- C9 counterexample: the object literal created by abstract exposes only
get, equals, set and delete; there is no has method. -/
theorem C9_counterexample_no_has : ¬ ("has" ∈ absMethodNames) := by decide

/-- C9 amended: abstract returns a cached object (repeated requests for the
same path return the identical object and leave the store unchanged) bound
to the requested path, whose get/equals/set/delete closures delegate to the
corresponding store operation at that path; the created object exposes
exactly those four methods (no has). -/
theorem C9_abstract_cached_and_delegates (S : Store) (p : String) (hwf : absWF S) :
    ((S.abstract p).2.abstract p).1 = (S.abstract p).1 ∧
    ((S.abstract p).2.abstract p).2 = (S.abstract p).2 ∧
    (S.abstract p).1.basePath = p ∧
    (∀ (S2 : Store) (o : AbsObj) (tr : Bool) (v : Val) (fuel : Nat),
      o.get S2 tr = S2.get tr (some o.basePath) ∧
      o.equals S2 tr v = S2.equals tr (some o.basePath) v ∧
      o.set fuel S2 v = S2.assign fuel [(o.basePath, v)] ∧
      o.delete fuel S2 = S2.delete fuel [o.basePath]) ∧
    absMethodNames = ["get", "equals", "set", "delete"] := by
  refine ⟨?_, ?_, ?_, fun S2 o tr v fuel => ⟨rfl, rfl, rfl, rfl⟩, rfl⟩ <;>
  · cases hf : S.pathData.find? (fun x => x.1 == p) with
    | some e =>
      have hep : e.1 = p := by
        have := List.find?_some hf
        simpa using this
      cases ha : e.2.abstract with
      | some o =>
        have hbp : o.basePath = p := by
          rw [hwf e (List.mem_of_find?_eq_some hf) o ha, hep]
        simp [Store.abstract, Store.getPathData, hf, ha, hbp]
      | none =>
        simp only [Store.abstract, Store.getPathData, hf, ha]
        try rw [find?_setPD _ _ _ _ hf]
        try simp
    | none =>
      simp only [Store.abstract, Store.getPathData, hf]
      try rw [find?_setPD _ p _ (p, ⟨splitDot p, none, none⟩)
        (by rw [find?_append_right _ _ _ (fun x hx => by
              have := List.find?_eq_none.mp hf x hx
              simpa using this)]
            simp)]
      try simp

theorem C9_abstract_cached_and_delegates_witness :
    absWF exFnStore ∧ (exFnStore.abstract "a.b").1.basePath = "a.b" ∧
    ((exFnStore.abstract "a.b").2.abstract "a.b").1 = (exFnStore.abstract "a.b").1 := by
  have hwf : absWF exFnStore := by
    intro e he o ho
    simp [exFnStore, mkStore] at he
  have main := C9_abstract_cached_and_delegates exFnStore "a.b" hwf
  exact ⟨hwf, main.2.2.1, main.1⟩

theorem structure_eta (S : Store) : { S with pathData := S.pathData } = S := rfl

theorem getPathData_shape (S : Store) (p : String) :
    ∃ pdl, (S.getPathData p).2 = { S with pathData := pdl } := by
  unfold Store.getPathData
  split
  · exact ⟨S.pathData, rfl⟩
  · exact ⟨_, rfl⟩

theorem find?_append_sing {α : Type} (p : α → Bool) (l : List α) (x : α)
    (hx : p x = false) : (l ++ [x]).find? p = l.find? p := by
  induction l with
  | nil => simp [List.find?, hx]
  | cons a rest ih =>
    cases hpa : p a
    · rw [List.cons_append, List.find?_cons_of_neg _ (by simp [hpa]),
        List.find?_cons_of_neg _ (by simp [hpa]), ih]
    · rw [List.cons_append, List.find?_cons_of_pos _ hpa, List.find?_cons_of_pos _ hpa]

theorem setAtPathGo_pathData_comm (fuel : Nat) (unset : Bool) (value : Val)
    (toks : List String) : ∀ (a : Nat) (deps : Option (List String))
      (parents : List (List String)) (S : Store) (pdl : List (String × PathData)),
    setAtPathGo fuel unset value toks a deps parents { S with pathData := pdl } =
      (setAtPathGo fuel unset value toks a deps parents S).map
        (fun R => { R with pathData := pdl }) := by
  induction toks with
  | nil => intros; rfl
  | cons t rest ih =>
    intro a deps parents S pdl
    cases rest with
    | nil =>
      dsimp only [setAtPathGo]
      by_cases hcond : (!unset || propEnum S.heap (Val.ref a) t) = true
      · rw [if_pos hcond, if_pos hcond]
        by_cases hu : unset = true
        · rw [if_pos hu, if_pos hu]
          cases hdn : subDepAt S.tree deps t with
          | none => rfl
          | some dn =>
            simp only [Option.map_map]
            congr 1
        · rw [if_neg hu, if_neg hu]
          simp only [Option.map_map]
          congr 1
          funext r
          dsimp only [Function.comp]
          by_cases hr : r.2.2 = true
          · rw [if_pos hr, if_pos hr]
            rfl
          · rw [if_neg hr, if_neg hr]
            rfl
      · rw [if_neg hcond, if_neg hcond]
        rfl
    | cons t2 rest2 =>
      dsimp only [setAtPathGo]
      by_cases hct : isTraversable S.heap (valAt S.heap (Val.ref a) t) = true
      · rw [if_pos hct, if_pos hct]
        exact ih _ _ _ _ _
      · rw [if_neg hct, if_neg hct]
        by_cases hu : unset = true
        · rw [if_pos hu, if_pos hu]
          rfl
        · rw [if_neg hu, if_neg hu]
          exact ih _ _ _
            { S with heap := ((S.heap.alloc ⟨.object, [], false⟩).2.setField a t (.ref (S.heap.alloc ⟨.object, [], false⟩).1)) } pdl

theorem setAtPath_cancel (S : Store) (p : String) (v : Val) (f : Val → Val) (fuel : Nat)
    (hm : S.mutatorOf p = some f) (hc : f v = .sCANCEL) (hnm : S.noMutate = false) :
    S.setAtPath fuel p v = some (S.getPathData p).2 := by
  have hmut : (S.getPathData p).1.mutate = some f := hm
  obtain ⟨pdl, hshape⟩ := getPathData_shape S p
  simp only [Store.setAtPath, hmut, hshape, hc, hnm, Bool.not_false, if_true]

theorem getPathData_find?_other (S : Store) (p q : String) (hpq : p ≠ q) :
    ((S.getPathData p).2).pathData.find? (fun e => e.1 == q) =
      S.pathData.find? (fun e => e.1 == q) := by
  unfold Store.getPathData
  split
  · rfl
  · dsimp only
    exact find?_append_sing _ _ _ (by simp [hpq])

theorem setAtPath_core_pathData (S : Store) (pdl : List (String × PathData))
    (q : String) (fuel : Nat) (w : Val)
    (hq : pdl.find? (fun e => e.1 == q) = S.pathData.find? (fun e => e.1 == q)) :
    (Store.setAtPath fuel { S with pathData := pdl } q w).map Store.core =
      (Store.setAtPath fuel S q w).map Store.core := by
  unfold Store.setAtPath Store.getPathData
  dsimp only
  rw [hq]
  cases hf : S.pathData.find? (fun e => e.1 == q) with
  | some e =>
    dsimp only
    split
    case isTrue =>
      split
      · rfl
      · split
        · split
          · rfl
          · rw [setAtPathGo_pathData_comm fuel _ _ _ _ _ _ { S with isTrav := true, data := Val.ref (S.heap.alloc ⟨.object, [], false⟩).1, heap := (S.heap.alloc ⟨.object, [], false⟩).2 } (pdl)]
            simp only [Option.map_map]
            congr 1
        · split
          · rw [setAtPathGo_pathData_comm fuel _ _ _ _ _ _ S (pdl)]
            simp only [Option.map_map]
            congr 1
          · rfl
    case isFalse =>
      split
      · rfl
      · split
        · split
          · rfl
          · rw [setAtPathGo_pathData_comm fuel _ _ _ _ _ _ { S with isTrav := true, data := Val.ref (S.heap.alloc ⟨.object, [], false⟩).1, heap := (S.heap.alloc ⟨.object, [], false⟩).2 } (pdl)]
            simp only [Option.map_map]
            congr 1
        · split
          · rw [setAtPathGo_pathData_comm fuel _ _ _ _ _ _ S (pdl)]
            simp only [Option.map_map]
            congr 1
          · rfl
  | none =>
    dsimp only
    split
    case isTrue =>
      split
      · rfl
      · split
        · split
          · rfl
          · rw [setAtPathGo_pathData_comm fuel _ _ _ _ _ _ { S with isTrav := true, data := Val.ref (S.heap.alloc ⟨.object, [], false⟩).1, heap := (S.heap.alloc ⟨.object, [], false⟩).2 } (pdl ++ [(q, (⟨splitDot q, none, none⟩ : PathData))]),
            setAtPathGo_pathData_comm fuel _ _ _ _ _ _ { S with isTrav := true, data := Val.ref (S.heap.alloc ⟨.object, [], false⟩).1, heap := (S.heap.alloc ⟨.object, [], false⟩).2 } (S.pathData ++ [(q, (⟨splitDot q, none, none⟩ : PathData))])]
            simp only [Option.map_map]
            congr 1
        · split
          · rw [setAtPathGo_pathData_comm fuel _ _ _ _ _ _ S (pdl ++ [(q, (⟨splitDot q, none, none⟩ : PathData))]),
            setAtPathGo_pathData_comm fuel _ _ _ _ _ _ S (S.pathData ++ [(q, (⟨splitDot q, none, none⟩ : PathData))])]
            simp only [Option.map_map]
            congr 1
          · rfl
    case isFalse =>
      split
      · rfl
      · split
        · split
          · rfl
          · rw [setAtPathGo_pathData_comm fuel _ _ _ _ _ _ { S with isTrav := true, data := Val.ref (S.heap.alloc ⟨.object, [], false⟩).1, heap := (S.heap.alloc ⟨.object, [], false⟩).2 } (pdl ++ [(q, (⟨splitDot q, none, none⟩ : PathData))]),
            setAtPathGo_pathData_comm fuel _ _ _ _ _ _ { S with isTrav := true, data := Val.ref (S.heap.alloc ⟨.object, [], false⟩).1, heap := (S.heap.alloc ⟨.object, [], false⟩).2 } (S.pathData ++ [(q, (⟨splitDot q, none, none⟩ : PathData))])]
            simp only [Option.map_map]
            congr 1
        · split
          · rw [setAtPathGo_pathData_comm fuel _ _ _ _ _ _ S (pdl ++ [(q, (⟨splitDot q, none, none⟩ : PathData))]),
            setAtPathGo_pathData_comm fuel _ _ _ _ _ _ S (S.pathData ++ [(q, (⟨splitDot q, none, none⟩ : PathData))])]
            simp only [Option.map_map]
            congr 1
          · rfl

theorem watchChanges_map_core (S : Store) (op1 op2 : Store → Option Store)
    (hop : (op1 { S with opCount := S.opCount + 1 }).map Store.core =
           (op2 { S with opCount := S.opCount + 1 }).map Store.core) :
    (S.watchChanges op1).map Store.core = (S.watchChanges op2).map Store.core := by
  unfold Store.watchChanges
  dsimp only
  cases h1 : op1 { S with opCount := S.opCount + 1 } with
  | none =>
    rw [h1] at hop
    cases h2 : op2 { S with opCount := S.opCount + 1 } with
    | none => rfl
    | some B =>
      rw [h2] at hop
      simp at hop
  | some A =>
    rw [h1] at hop
    cases h2 : op2 { S with opCount := S.opCount + 1 } with
    | none =>
      rw [h2] at hop
      simp at hop
    | some B =>
      rw [h2] at hop
      simp only [Option.map_some'] at hop
      have hcore := Option.some.inj hop
      simp only [Store.core, Prod.mk.injEq] at hcore
      obtain ⟨hdata, hheap, htrav, htree, hcds, hopc, hnmu, hnd, hna, hfired⟩ := hcore
      simp only [Option.map_some', Option.some.injEq]
      have hcond : ((A.opCount - 1 == 0) && !(A.changeDeps.isEmpty)) =
          ((B.opCount - 1 == 0) && !(B.changeDeps.isEmpty)) := by
        rw [hopc, hcds]
      by_cases hb : ((B.opCount - 1 == 0) && !(B.changeDeps.isEmpty)) = true
      · rw [if_pos (hcond.trans hb), if_pos hb]
        simp only [Store.core, Prod.mk.injEq]
        exact ⟨hdata, hheap, htrav, htree, by simp, by rw [hopc], hnmu, hnd, hna,
          by rw [hfired, hcds]⟩
      · rw [if_neg (by rw [hcond]; exact hb), if_neg hb]
        simp only [Store.core, Prod.mk.injEq]
        exact ⟨hdata, hheap, htrav, htree, hcds, by rw [hopc], hnmu, hnd, hna, hfired⟩

/-- C5: a mutator returning CANCEL aborts exactly that path's write: the
store is returned with only its path cache possibly extended (value tree,
dependency tree, accumulated notifications and fired log all unchanged),
and a two-path assign behaves, on everything but the path cache, exactly
like the assign of the other path alone. -/
theorem mutatorOf_opCount (S : Store) (n : Nat) (p : String) :
    Store.mutatorOf { S with opCount := n } p = S.mutatorOf p := by
  simp only [Store.mutatorOf, Store.getPathData]
  cases hf : S.pathData.find? (fun e => e.1 == p) <;> simp [hf]

theorem C5_mutator_cancel (S : Store) (p q : String) (v w : Val) (f : Val → Val)
    (fuel : Nat)
    (hm : S.mutatorOf p = some f) (hc : f v = .sCANCEL) (hnm : S.noMutate = false)
    (hpq : p ≠ q) :
    (S.setAtPath fuel p v = some (S.getPathData p).2 ∧
      ((S.getPathData p).2).core = S.core) ∧
    (S.assign fuel [(p, v), (q, w)]).map Store.core =
      (S.assign fuel [(q, w)]).map Store.core := by
  obtain ⟨pdl, hshape⟩ := getPathData_shape S p
  refine ⟨⟨setAtPath_cancel S p v f fuel hm hc hnm, by rw [hshape]; rfl⟩, ?_⟩
  unfold Store.assign
  apply watchChanges_map_core
  simp only [List.foldl_cons, List.foldl_nil, Option.some_bind]
  have hm0 : Store.mutatorOf { S with opCount := S.opCount + 1 } p = some f := by
    rw [mutatorOf_opCount]
    exact hm
  have hnm0 : ({ S with opCount := S.opCount + 1 } : Store).noMutate = false := hnm
  rw [setAtPath_cancel { S with opCount := S.opCount + 1 } p v f fuel hm0 hc hnm0]
  simp only [Option.some_bind]
  obtain ⟨P1, hshape0⟩ :=
    getPathData_shape { S with opCount := S.opCount + 1 } p
  have hq : P1.find? (fun e => e.1 == q) =
      ({ S with opCount := S.opCount + 1 } : Store).pathData.find?
        (fun e => e.1 == q) := by
    have hother := getPathData_find?_other { S with opCount := S.opCount + 1 } p q hpq
    rw [hshape0] at hother
    simpa using hother
  rw [hshape0]
  exact setAtPath_core_pathData { S with opCount := S.opCount + 1 } P1 q fuel w hq

theorem C5_mutator_cancel_witness :
    exCancelStore.mutatorOf "a" = some (fun _ => Val.sCANCEL) ∧
    (exCancelStore.setAtPath 9 "a" (.num 5) = some (exCancelStore.getPathData "a").2 ∧
      ((exCancelStore.getPathData "a").2).core = exCancelStore.core) ∧
    (exCancelStore.assign 9 [("a", .num 5), ("b", .num 6)]).map Store.core =
      (exCancelStore.assign 9 [("b", .num 6)]).map Store.core := by
  refine ⟨rfl, ?_⟩
  exact ⟨(C5_mutator_cancel exCancelStore "a" "b" (.num 5) (.num 6)
      (fun _ => Val.sCANCEL) 9 rfl rfl rfl (by decide)).1,
    (C5_mutator_cancel exCancelStore "a" "b" (.num 5) (.num 6)
      (fun _ => Val.sCANCEL) 9 rfl rfl rfl (by decide)).2⟩

theorem DiffExt_refl {P : List String → Prop} (st : DiffSt) : DiffExt P st st :=
  ⟨⟨[], by simp, by simp⟩, fun h => h, Eq.refl _,
    fun _ nd2 h => ⟨nd2, h, Eq.refl _, fun _ hd => hd⟩⟩

theorem DiffExt_trans {P : List String → Prop} {st1 st2 st3 : DiffSt}
    (h12 : DiffExt P st1 st2) (h23 : DiffExt P st2 st3) : DiffExt P st1 st3 := by
  obtain ⟨⟨e1, he1, hs1⟩, hn1, hf1, hg1⟩ := h12
  obtain ⟨⟨e2, he2, hs2⟩, hn2, hf2, hg2⟩ := h23
  refine ⟨⟨e1 ++ e2, by rw [he2, he1, List.append_assoc], ?_⟩,
    fun h => hn2 (hn1 h), hf2.trans hf1, ?_⟩
  · intro d hd
    rcases List.mem_append.mp hd with hd1 | hd2
    · exact hs1 d hd1
    · obtain ⟨q, nd, hq, hget, hmem⟩ := hs2 d hd2
      obtain ⟨nd1, hget1, _, hsub⟩ := hg1 q nd hget
      exact ⟨q, nd1, hq, hget1, hsub d hmem⟩
  · intro q nd3 hget3
    obtain ⟨nd2, hget2, hdep2, hsub2⟩ := hg2 q nd3 hget3
    obtain ⟨nd1, hget1, hdep1, hsub1⟩ := hg1 q nd2 hget2
    exact ⟨nd1, hget1, hdep2.trans hdep1, fun d hd => hsub1 d (hsub2 d hd)⟩

theorem DiffExt_mono {P Q : List String → Prop} {st st2 : DiffSt}
    (hPQ : ∀ q, P q → Q q) (h : DiffExt P st st2) : DiffExt Q st st2 := by
  obtain ⟨⟨e, he, hs⟩, hn, hf, hg⟩ := h
  refine ⟨⟨e, he, ?_⟩, hn, hf, hg⟩
  intro d hd
  obtain ⟨q, nd, hq, hget, hmem⟩ := hs d hd
  exact ⟨q, nd, hPQ q hq, hget, hmem⟩

theorem treeSet_map_fst (t : DepTree) (p : List String) (nd : NodeData) :
    (treeSet t p nd).map Prod.fst = t.map Prod.fst := by
  unfold treeSet
  induction t with
  | nil => rfl
  | cons e rest ih =>
    by_cases he : e.1 = p <;> simp [he, ih]

theorem treeGet_treeSet_other (t : DepTree) (p : List String) (nd : NodeData)
    (q : List String) (hq : q ≠ p) :
    treeGet (treeSet t p nd) q = treeGet t q := by
  unfold treeGet treeSet
  induction t with
  | nil => rfl
  | cons e rest ih =>
    by_cases he : e.1 = p
    · rw [List.map_cons, if_pos he, List.find?_cons_of_neg _ (by simp [Ne.symm hq]),
        List.find?_cons_of_neg _ (by simp [he, Ne.symm hq])]
      simpa using ih
    · by_cases heq : e.1 = q
      · rw [List.map_cons, if_neg he, List.find?_cons_of_pos _ (by simp [heq]),
          List.find?_cons_of_pos _ (by simp [heq])]
      · rw [List.map_cons, if_neg he, List.find?_cons_of_neg _ (by simp [heq]),
          List.find?_cons_of_neg _ (by simp [heq])]
        simpa using ih

theorem treeGet_treeSet_self (t : DepTree) (p : List String) (nd nd0 : NodeData)
    (hg : treeGet t p = some nd0) :
    treeGet (treeSet t p nd) p = some nd := by
  unfold treeGet at hg
  unfold treeGet treeSet
  induction t with
  | nil => simp at hg
  | cons e rest ih =>
    by_cases he : e.1 = p
    · rw [List.map_cons, if_pos he, List.find?_cons_of_pos _ (by simp)]
      rfl
    · rw [List.find?_cons_of_neg _ (by simp [he])] at hg
      rw [List.map_cons, if_neg he, List.find?_cons_of_neg _ (by simp [he])]
      exact ih hg

theorem mapGet_mem (m : List (Val × Nat)) (v : Val) (e : Nat)
    (h : mapGet m v = some e) : e ∈ m.map (fun x => x.2) := by
  unfold mapGet at h
  rw [Option.map_eq_some'] at h
  obtain ⟨x, hx, hxe⟩ := h
  rw [List.mem_map]
  exact ⟨x, List.mem_of_find?_eq_some hx, hxe⟩

theorem addToSet_ext2 (l : List Nat) (x : Nat) :
    ∃ e, addToSet l x = l ++ e ∧ ∀ y ∈ e, y = x := by
  unfold addToSet
  split
  · exact ⟨[], by simp, by simp⟩
  · exact ⟨[x], Eq.refl _, by simp⟩

theorem optAdd_ext (l : List Nat) (o : Option Nat) :
    ∃ e, optAdd l o = l ++ e ∧ ∀ y ∈ e, o = some y := by
  cases o with
  | none => exact ⟨[], by simp [optAdd], by simp⟩
  | some x =>
    obtain ⟨e, he, hall⟩ := addToSet_ext2 l x
    exact ⟨e, he, fun y hy => by rw [hall y hy]⟩

theorem optAdd_nodup (l : List Nat) (o : Option Nat) (hl : l.Nodup) :
    (optAdd l o).Nodup := by
  cases o with
  | none => exact hl
  | some x => exact addToSet_nodup l x hl

theorem nodeIds_update_active (nd : NodeData) (m : List (Val × Nat)) (v : Val)
    (hm : nd.eqDepMap = some m) :
    ∀ d ∈ nodeIds (NodeData.mk nd.dep (some m) (mapGet m v)), d ∈ nodeIds nd := by
  intro d hd
  unfold nodeIds at hd ⊢
  simp only [hm, Option.getD_some, List.mem_append] at hd ⊢
  rcases hd with (h | h) | h
  · exact Or.inl (Or.inl h)
  · exact Or.inl (Or.inr h)
  · rcases hma : mapGet m v with _ | e
    · rw [hma] at h
      simp at h
    · rw [hma] at h
      simp only [Option.toList_some, List.mem_singleton] at h
      subst h
      exact Or.inl (Or.inr (mapGet_mem m v d hma))

theorem mem_nodeIds_of_dep (nd : NodeData) (y : Nat) (h : nd.dep = some y) :
    y ∈ nodeIds nd := by
  simp [nodeIds, h]

theorem mem_nodeIds_of_active (nd : NodeData) (y : Nat) (h : nd.activeEqDep = some y) :
    y ∈ nodeIds nd := by
  simp [nodeIds, h]

theorem mem_nodeIds_of_mapGet (nd : NodeData) (m : List (Val × Nat)) (v : Val)
    (y : Nat) (hm : nd.eqDepMap = some m) (h : mapGet m v = some y) :
    y ∈ nodeIds nd := by
  simp only [nodeIds, hm, Option.getD_some, List.mem_append]
  exact Or.inl (Or.inr (mapGet_mem m v y h))

theorem registerChange_diffExt (st : DiffSt) (node : Option (List String)) (v : Val) :
    DiffExt (fun q => node = some q) st (registerChange st node v) := by
  unfold registerChange
  cases node with
  | none => exact DiffExt_refl st
  | some p =>
    dsimp only
    cases hg : treeGet st.tree p with
    | none => exact DiffExt_refl st
    | some nd =>
      dsimp only
      obtain ⟨e1, he1, hs1⟩ := optAdd_ext st.cds nd.dep
      cases hm : nd.eqDepMap with
      | none =>
        refine ⟨⟨e1, he1, fun d hd => ⟨p, nd, Eq.refl _, hg,
            mem_nodeIds_of_dep nd d (hs1 d hd)⟩⟩,
          fun h => optAdd_nodup _ _ h, Eq.refl _,
          fun q nd2 h => ⟨nd2, h, Eq.refl _, fun d hd => hd⟩⟩
      | some m =>
        dsimp only
        by_cases hne : mapGet m v ≠ nd.activeEqDep
        · rw [if_pos hne]
          obtain ⟨e2, he2, hs2⟩ := optAdd_ext (optAdd st.cds nd.dep) (mapGet m v)
          obtain ⟨e3, he3, hs3⟩ :=
            optAdd_ext (optAdd (optAdd st.cds nd.dep) (mapGet m v)) nd.activeEqDep
          refine ⟨⟨e1 ++ (e2 ++ e3), ?_, ?_⟩,
            fun h => optAdd_nodup _ _ (optAdd_nodup _ _ (optAdd_nodup _ _ h)),
            treeSet_map_fst _ _ _, ?_⟩
          · show optAdd (optAdd (optAdd st.cds nd.dep) (mapGet m v)) nd.activeEqDep
              = st.cds ++ (e1 ++ (e2 ++ e3))
            rw [he3, he2, he1]
            simp [List.append_assoc]
          · intro d hd
            refine ⟨p, nd, Eq.refl _, hg, ?_⟩
            rcases List.mem_append.mp hd with hd | hd
            · exact mem_nodeIds_of_dep nd d (hs1 d hd)
            · rcases List.mem_append.mp hd with hd | hd
              · exact mem_nodeIds_of_mapGet nd m v d hm (hs2 d hd)
              · exact mem_nodeIds_of_active nd d (hs3 d hd)
          · intro q nd2 hq
            by_cases hqp : q = p
            · subst hqp
              rw [treeGet_treeSet_self st.tree q _ nd hg] at hq
              have hnd2 : nd2 = NodeData.mk nd.dep (some m) (mapGet m v) :=
                (Option.some.inj hq).symm
              subst hnd2
              exact ⟨nd, hg, Eq.refl _, nodeIds_update_active nd m v hm⟩
            · rw [treeGet_treeSet_other st.tree p _ q hqp] at hq
              exact ⟨nd2, hq, Eq.refl _, fun d hd => hd⟩
        · rw [if_neg hne]
          refine ⟨⟨e1, he1, fun d hd => ⟨p, nd, Eq.refl _, hg,
              mem_nodeIds_of_dep nd d (hs1 d hd)⟩⟩,
            fun h => optAdd_nodup _ _ h, Eq.refl _,
            fun q nd2 h => ⟨nd2, h, Eq.refl _, fun d hd => hd⟩⟩
theorem foldl_bind_none {α β : Type} (f : β → α → Option β) (L : List α) :
    L.foldl (fun acc x => acc.bind fun r => f r x) none = none := by
  induction L with
  | nil => rfl
  | cons x rest ih => simpa using ih

theorem foldl_bind_inv {α β : Type} (f : β → α → Option β) (Inv : β → Prop)
    (L : List α)
    (hstep : ∀ r x, x ∈ L → Inv r → ∀ r2, f r x = some r2 → Inv r2) :
    ∀ r0 out, Inv r0 →
      L.foldl (fun acc x => acc.bind fun r => f r x) (some r0) = some out →
      Inv out := by
  induction L with
  | nil =>
    intro r0 out h0 hout
    rw [List.foldl_nil] at hout
    cases hout
    exact h0
  | cons x rest ih =>
    intro r0 out h0 hout
    rw [List.foldl_cons] at hout
    cases hf : f r0 x with
    | none =>
      rw [show ((some r0).bind fun r => f r x) = none from by simp [hf]] at hout
      rw [foldl_bind_none] at hout
      cases hout
    | some r1 =>
      rw [show ((some r0).bind fun r => f r x) = some r1 from by simp [hf]] at hout
      exact ih (fun r y hy h r2 hf2 => hstep r y (List.mem_cons_of_mem x hy) h r2 hf2)
        r1 out (hstep r0 x (List.mem_cons_self x rest) h0 r1 hf) hout

theorem treeGet_some_of_map_fst (t1 t2 : DepTree)
    (hf : t2.map Prod.fst = t1.map Prod.fst) (p : List String) (nd : NodeData)
    (hg : treeGet t1 p = some nd) : ∃ nd2, treeGet t2 p = some nd2 := by
  have hany : ∀ (t : DepTree), (∃ x, treeGet t p = some x) ↔ p ∈ t.map Prod.fst := by
    intro t
    unfold treeGet
    constructor
    · rintro ⟨x, hx⟩
      rw [Option.map_eq_some'] at hx
      obtain ⟨e, he, _⟩ := hx
      have hep : e.1 = p := by simpa using List.find?_some he
      exact List.mem_map.mpr ⟨e, List.mem_of_find?_eq_some he, hep⟩
    · intro hx
      rw [List.mem_map] at hx
      obtain ⟨e, hel, hep⟩ := hx
      have hiss : (t.find? (fun e => e.1 == p)).isSome :=
        List.find?_isSome.mpr ⟨e, hel, by simp [hep]⟩
      obtain ⟨w, hw⟩ := Option.isSome_iff_exists.mp hiss
      exact ⟨w.2, by rw [hw]; rfl⟩
  have h1 := (hany t1).mp ⟨nd, hg⟩
  rw [← hf] at h1
  exact (hany t2).mpr h1

theorem DiffExt_treeGet {P : List String → Prop} {st st2 : DiffSt}
    (hD : DiffExt P st st2) (p0 : List String) (nd : NodeData) (d : Nat)
    (hg : treeGet st.tree p0 = some nd) (hd : nd.dep = some d) :
    ∃ nd2, treeGet st2.tree p0 = some nd2 ∧ nd2.dep = some d := by
  obtain ⟨_, _, hf, hgeach⟩ := hD
  obtain ⟨nd2, hg2⟩ := treeGet_some_of_map_fst st.tree st2.tree hf p0 nd hg
  obtain ⟨nd1, hg1, hdep, _⟩ := hgeach p0 nd2 hg2
  rw [hg] at hg1
  have hnd1 : nd = nd1 := Option.some.inj hg1
  refine ⟨nd2, hg2, ?_⟩
  rw [hdep, ← hnd1, hd]

theorem subDepAt_some (t : DepTree) (node : Option (List String)) (key : String)
    (p' : List String) (h : subDepAt t node key = some p') :
    ∃ p0, node = some p0 ∧ p' = p0 ++ [key] := by
  cases node with
  | none => simp [subDepAt] at h
  | some p =>
    simp only [subDepAt] at h
    refine ⟨p, Eq.refl _, ?_⟩
    by_cases ht : treeHas t (p ++ [key]) = true
    · rw [if_pos ht] at h
      exact (Option.some.inj h).symm
    · rw [if_neg ht] at h
      cases h

theorem triggerAllDeps_inv (h : Heap) :
    ∀ fuel st deps kf cv seen out,
      triggerAllDeps h fuel st deps kf cv seen = some out →
      DiffExt (fun q => ∃ p0, deps = some p0 ∧ p0 <+: q) st out.1 := by
  intro fuel
  induction fuel with
  | zero =>
    intro st deps kf cv seen out hout
    simp [triggerAllDeps] at hout
  | succ n ih =>
    intro st deps kf cv seen out hout
    simp only [triggerAllDeps] at hout
    by_cases hc : (deps.isSome && isTraversable h kf) = true
    · rw [if_pos hc] at hout
      by_cases hs : seenHas seen kf = true
      · rw [if_pos hs] at hout
        cases hout
        exact DiffExt_refl st
      · rw [if_neg hs] at hout
        cases deps with
        | none => simp at hc
        | some p0 =>
          simp only [Option.getD_some] at hout
          refine foldl_bind_inv _
            (fun (r : DiffSt × List Nat) =>
              DiffExt (fun q => ∃ q0, some p0 = some q0 ∧ q0 <+: q) st r.1)
            _ ?_ _ out (DiffExt_refl st) hout
          intro r x hx hInv r2 hstep
          have hreg : DiffExt (fun q => ∃ q0, some p0 = some q0 ∧ q0 <+: q) r.1
              (registerChange r.1 (some (p0 ++ [x]))
                (if isTraversable h cv && propEnum h cv x then valAt h cv x
                  else Val.undef)) := by
            refine DiffExt_mono ?_ (registerChange_diffExt _ _ _)
            intro q hq
            exact ⟨p0, Eq.refl _, (Option.some.inj hq) ▸ List.prefix_append p0 [x]⟩
          by_cases hp : propEnum h kf x = true
          · rw [if_pos hp] at hstep
            have hrec := ih _ _ _ _ _ _ hstep
            refine DiffExt_trans (DiffExt_trans hInv hreg) (DiffExt_mono ?_ hrec)
            intro q hq
            obtain ⟨q0, hq0, hpre⟩ := hq
            exact ⟨p0, Eq.refl _,
              ((List.prefix_append p0 [x]).trans ((Option.some.inj hq0) ▸ hpre))⟩
          · rw [if_neg hp] at hstep
            cases hstep
            exact DiffExt_trans hInv hreg
    · rw [if_neg hc] at hout
      cases hout
      exact DiffExt_refl st
theorem triggerChangedDeps_inv (h : Heap) :
    ∀ fuel st node oldV newV seen out,
      triggerChangedDeps h fuel st node oldV newV seen = some out →
      DiffExt (fun q => ∃ p0, node = some p0 ∧ p0 <+: q) st out.1 ∧
      (out.2.2 = true → ∀ p0 nd d, node = some p0 → treeGet st.tree p0 = some nd →
        nd.dep = some d → d ∈ out.1.cds) := by
  intro fuel
  induction fuel with
  | zero =>
    intro st node oldV newV seen out hout
    simp [triggerChangedDeps] at hout
  | succ n ih =>
    intro st node oldV newV seen out hout
    simp only [triggerChangedDeps] at hout
    rw [Option.bind_eq_some] at hout
    obtain ⟨r, hcore, hepi⟩ := hout
    rw [Option.map_eq_some'] at hepi
    obtain ⟨st2, hinner, hmk⟩ := hepi
    have hfold : ∀ (L : List String) (s0 : List Nat) (b0 : Bool)
        (w : DiffSt × List Nat × Bool) (ov : Val) (nvf : String → Val),
        L.foldl
          (fun acc key => acc.bind fun v =>
            if (!v.2.2 || (subDepAt v.1.tree node key).isSome) = true then
              (triggerChangedDeps h n v.1 (subDepAt v.1.tree node key)
                  (valAt h ov key) (nvf key) v.2.1).map
                (fun q => (q.1, q.2.1, v.2.2 || q.2.2))
            else some v)
          (some (st, s0, b0)) = some w →
        DiffExt (fun q => ∃ p0, node = some p0 ∧ p0 <+: q) st w.1 := by
      intro L s0 b0 w ov nvf hw
      refine foldl_bind_inv _
        (fun v => DiffExt (fun q => ∃ p0, node = some p0 ∧ p0 <+: q) st v.1)
        _ ?_ _ w (DiffExt_refl st) hw
      intro v key hkey hInv v2 hstep2
      by_cases hcond : (!v.2.2 || (subDepAt v.1.tree node key).isSome) = true
      · rw [if_pos hcond] at hstep2
        rw [Option.map_eq_some'] at hstep2
        obtain ⟨q', hq', hq'e⟩ := hstep2
        have hsub := (ih v.1 _ _ _ _ q' hq').1
        have hmono : DiffExt (fun q => ∃ p0, node = some p0 ∧ p0 <+: q) v.1 q'.1 := by
          refine DiffExt_mono ?_ hsub
          intro q hq2
          obtain ⟨p0', hp0', hpre⟩ := hq2
          obtain ⟨p0, hnode, hfull⟩ := subDepAt_some _ _ _ _ hp0'
          have hpp : p0 <+: p0' := by
            rw [hfull]
            exact List.prefix_append p0 [key]
          exact ⟨p0, hnode, hpp.trans hpre⟩
        have h2 : v2.1 = q'.1 := by rw [← hq'e]
        rw [h2]
        exact DiffExt_trans hInv hmono
      · rw [if_neg hcond] at hstep2
        cases hstep2
        exact hInv
    have hA : DiffExt (fun q => ∃ p0, node = some p0 ∧ p0 <+: q) st r.1 := by
      split at hcore
      · split at hcore
        · cases hcore
          exact DiffExt_refl st
        · split at hcore
          · split at hcore
            · cases hcore
              exact DiffExt_refl st
            · split at hcore
              · split at hcore
                all_goals try split at hcore
                all_goals
                  first
                  | (cases hcore
                     exact DiffExt_refl st)
                  | (rw [Option.map_eq_some'] at hcore
                     obtain ⟨w, hw, hwr⟩ := hcore
                     have hche : r.1 = w.1 := by rw [← hwr]
                     rw [hche]
                     exact hfold _ _ _ w oldV _ hw)
              · split at hcore
                · rw [Option.map_eq_some'] at hcore
                  obtain ⟨w, hw, hwr⟩ := hcore
                  have hche : r.1 = w.1 := by rw [← hwr]
                  rw [hche]
                  exact hfold _ _ _ w oldV _ hw
                · cases hcore
                  exact DiffExt_refl st
          · cases hcore
            exact DiffExt_refl st
      · cases hcore
        exact DiffExt_refl st
    have hB : DiffExt (fun q => ∃ p0, node = some p0 ∧ p0 <+: q) st st2 := by
      by_cases hflag : r.2.2.2 = true
      · rw [if_pos hflag] at hinner
        cases hinner
        exact hA
      · rw [if_neg hflag] at hinner
        rw [Option.map_eq_some'] at hinner
        obtain ⟨w, hw, hwe⟩ := hinner
        have hta := triggerAllDeps_inv h n r.1 node newV newV [] w hw
        rw [← hwe]
        exact DiffExt_trans hA hta
    try dsimp only at hmk
    subst hmk
    constructor
    · by_cases hch : r.2.2.1 = true
      · try dsimp only
        rw [if_pos hch]
        exact DiffExt_trans hB
          (DiffExt_mono (fun q hq => ⟨q, hq, List.prefix_refl q⟩)
            (registerChange_diffExt st2 node newV))
      · try dsimp only
        rw [if_neg hch]
        exact hB
    · intro hch p0 nd d hnode hg hd
      try dsimp only at hch
      try dsimp only
      rw [if_pos hch]
      obtain ⟨nd2, hg2, hd2⟩ := DiffExt_treeGet hB p0 nd d hg hd
      subst hnode
      exact registerChange_dep_mem st2 p0 nd2 d newV hg2 hd2
theorem objAt_none_of_not_obj (h : Heap) (v : Val)
    (hv : instanceOfObject v = false) : h.objAt v = none := by
  cases v <;> simp_all [instanceOfObject, Heap.objAt]

theorem isTraversable_false_of_not_obj (h : Heap) (v : Val)
    (hv : instanceOfObject v = false) : isTraversable h v = false := by
  cases ht : isTraversable h v
  · rfl
  · rw [instanceOfObject_of_traversable h v ht] at hv
    cases hv

theorem eqCheckChanged_prim_new (h : Heap) (oldV newV : Val)
    (hv : instanceOfObject newV = false) : eqCheckChanged h oldV newV = true := by
  have hn := objAt_none_of_not_obj h newV hv
  unfold eqCheckChanged
  cases ho : h.objAt oldV with
  | none => rfl
  | some o =>
    cases hk : o.kind <;>
      simp [setsAreEqual, dateEq, regexpEq, ho, hk, hn]

theorem triggerChangedDeps_prim_refl (h : Heap) (k : Nat) (st : DiffSt)
    (node : Option (List String)) (v : Val) (seen : List Nat)
    (hv : instanceOfObject v = false) :
    triggerChangedDeps h (k + 2) st node v v seen = some (st, seen, false) := by
  have htrav := isTraversable_false_of_not_obj h v hv
  have hdv : decide (v ≠ v) = false := by simp
  simp [triggerChangedDeps, triggerAllDeps, hv, htrav, hdv]
theorem treeHas_of_treeGet (t : DepTree) (p : List String) (nd : NodeData)
    (h : treeGet t p = some nd) : treeHas t p = true := by
  unfold treeGet at h
  rw [Option.map_eq_some'] at h
  obtain ⟨e, he, _⟩ := h
  unfold treeHas
  rw [List.any_eq_true]
  refine ⟨e, List.mem_of_find?_eq_some he, ?_⟩
  have hp := List.find?_some he
  simpa using hp

theorem triggerChangedDeps_changed_of_ne (h : Heap) (fuel : Nat) (st : DiffSt)
    (node : Option (List String)) (oldV v : Val) (out : DiffSt × List Nat × Bool)
    (hv : instanceOfObject v = false) (hne : oldV ≠ v)
    (hout : triggerChangedDeps h fuel st node oldV v [] = some out) :
    out.2.2 = true := by
  cases fuel with
  | zero => simp [triggerChangedDeps] at hout
  | succ n =>
    simp only [triggerChangedDeps] at hout
    rw [Option.bind_eq_some] at hout
    obtain ⟨r, hcore, hepi⟩ := hout
    rw [Option.map_eq_some'] at hepi
    obtain ⟨st2, hinner, hmk⟩ := hepi
    have hr : r.2.2.1 = true := by
      by_cases h1 : instanceOfObject oldV = true
      · rw [if_pos h1] at hcore
        by_cases h2 : oldV = v
        · exact absurd h2 hne
        · rw [if_neg h2] at hcore
          by_cases h3 : isTraversable h oldV = true
          · rw [if_pos h3] at hcore
            have h4 : (seenHas ([] : List Nat) oldV || seenHas ([] : List Nat) v)
                = false := by
              simp [seenHas_nil]
            rw [h4, if_neg Bool.false_ne_true] at hcore
            have h5 : isTraversable h v = false := isTraversable_false_of_not_obj h v hv
            rw [h5, if_neg Bool.false_ne_true] at hcore
            by_cases h7 : node.isSome = true
            · rw [if_pos h7] at hcore
              rw [Option.map_eq_some'] at hcore
              obtain ⟨w, hw, hwr⟩ := hcore
              have hw2 : w.2.2 = true := by
                refine foldl_bind_inv _ (fun vv => vv.2.2 = true) _ ?_ _ w rfl hw
                intro vv key hkey hInv v2 hstep2
                by_cases hcond : (!vv.2.2 || (subDepAt vv.1.tree node key).isSome)
                    = true
                · rw [if_pos hcond] at hstep2
                  rw [Option.map_eq_some'] at hstep2
                  obtain ⟨q', hq', hq'e⟩ := hstep2
                  rw [← hq'e]
                  simp [hInv]
                · rw [if_neg hcond] at hstep2
                  cases hstep2
                  exact hInv
              rw [← hwr]
              exact hw2
            · rw [if_neg h7] at hcore
              cases hcore
              rfl
          · rw [if_neg h3] at hcore
            cases hcore
            exact eqCheckChanged_prim_new h oldV v hv
      · rw [if_neg h1] at hcore
        cases hcore
        exact decide_eq_true hne
    rw [← hmk]
    exact hr
theorem find?_map_entry (g : Obj → Obj) (L : List (Nat × Obj)) (a : Nat) (oa : Obj)
    (hl : (L.find? (fun e => e.1 == a)).map (fun x => x.2) = some oa) :
    ((L.map (fun e => if e.1 = a then (a, g e.2) else e)).find?
      (fun e => e.1 == a)).map (fun x => x.2) = some (g oa) := by
  induction L with
  | nil => simp at hl
  | cons e rest ih =>
    by_cases hea : e.1 = a
    · rw [List.find?_cons_of_pos _ (by simpa using hea)] at hl
      have hoa : e.2 = oa := by simpa using hl
      rw [List.map_cons, if_pos hea, List.find?_cons_of_pos _ (by simp)]
      simp [hoa]
    · rw [List.find?_cons_of_neg _ (by simpa using hea)] at hl
      rw [List.map_cons, if_neg hea, List.find?_cons_of_neg _ (by simpa using hea)]
      exact ih hl

theorem lookup_setField_self (h : Heap) (a : Nat) (k : String) (v : Val) (oa : Obj)
    (hl : h.lookup a = some oa) :
    (h.setField a k v).lookup a = some (
      if oa.keys.contains k then
        { oa with fields := oa.fields.map (fun f => if f.1 = k then (k, v) else f) }
      else { oa with fields := oa.fields ++ [(k, v)] }) := by
  unfold Heap.lookup at hl ⊢
  unfold Heap.setField
  simp only
  exact find?_map_entry
    (fun o => if o.keys.contains k then
        { o with fields := o.fields.map (fun f => if f.1 = k then (k, v) else f) }
      else { o with fields := o.fields ++ [(k, v)] })
    h.objs a oa hl

theorem contains_fst_mem {l : List (String × Val)} {k : String}
    (hc : (l.map Prod.fst).contains k = true) : ∃ f ∈ l, f.1 = k := by
  have hm : k ∈ l.map Prod.fst := by simpa using hc
  rw [List.mem_map] at hm
  obtain ⟨f, hf, hfk⟩ := hm
  exact ⟨f, hf, hfk⟩

theorem contains_fst_not_mem {l : List (String × Val)} {k : String}
    (hc : (l.map Prod.fst).contains k = false) : ∀ f ∈ l, f.1 ≠ k := by
  intro f hf hfk
  have : k ∈ l.map Prod.fst := List.mem_map.mpr ⟨f, hf, hfk⟩
  simp [this] at hc

theorem find?_map_rep (l : List (String × Val)) (k : String) (v : Val)
    (hc : (l.map Prod.fst).contains k = true) :
    (l.map (fun f => if f.1 = k then (k, v) else f)).find? (fun e => e.1 == k)
      = some (k, v) := by
  induction l with
  | nil => simp at hc
  | cons f rest ih =>
    rw [List.map_cons]
    by_cases hf : f.1 = k
    · rw [if_pos hf, List.find?_cons_of_pos _ (by simp)]
    · rw [if_neg hf, List.find?_cons_of_neg _ (by simpa using hf)]
      refine ih ?_
      have hm : k ∈ (f :: rest).map Prod.fst := by simpa using hc
      rw [List.map_cons, List.mem_cons] at hm
      rcases hm with hm | hm
      · exact absurd hm.symm hf
      · simpa using hm

theorem valAt_setField_self (h : Heap) (a : Nat) (k : String) (v : Val) (oa : Obj)
    (hl : h.lookup a = some oa) :
    valAt (h.setField a k v) (.ref a) k = v := by
  have hub := lookup_setField_self h a k v oa hl
  unfold valAt Heap.objAt
  dsimp only
  rw [hub]
  by_cases hc : oa.keys.contains k = true
  · rw [if_pos hc]
    simp only
    rw [find?_map_rep oa.fields k v hc]
  · rw [if_neg hc]
    simp only
    rw [find?_append_right _ _ _
      (fun x hx => by simpa using contains_fst_not_mem (Bool.eq_false_iff.mpr hc) x hx),
      List.find?_cons_of_pos _ (by simp)]
theorem map_eq_self_of {α : Type} (l : List α) (f : α → α)
    (h : ∀ x ∈ l, f x = x) : l.map f = l := by
  induction l with
  | nil => rfl
  | cons a rest ih =>
    rw [List.map_cons, h a (List.mem_cons_self a rest),
      ih (fun x hx => h x (List.mem_cons_of_mem a hx))]

theorem rep_map_fst (fields : List (String × Val)) (k : String) (v : Val) :
    (fields.map (fun f => if f.1 = k then (k, v) else f)).map Prod.fst
      = fields.map Prod.fst := by
  rw [List.map_map]
  apply List.map_congr_left
  intro f hf
  simp only [Function.comp_apply]
  by_cases hk : f.1 = k
  · simp [hk]
  · simp [hk]

theorem rep_map_self (fields : List (String × Val)) (k : String) (v : Val) :
    ((fields.map (fun f => if f.1 = k then (k, v) else f)).map
        (fun f => if f.1 = k then (k, v) else f))
      = fields.map (fun f => if f.1 = k then (k, v) else f) := by
  rw [List.map_map]
  apply List.map_congr_left
  intro f hf
  simp only [Function.comp_apply]
  by_cases hk : f.1 = k
  · simp [hk]
  · simp [hk]

theorem setField_idem (h : Heap) (a : Nat) (k : String) (v : Val) :
    (h.setField a k v).setField a k v = h.setField a k v := by
  unfold Heap.setField
  simp only
  congr 1
  rw [List.map_map]
  apply List.map_congr_left
  intro e he
  simp only [Function.comp_apply]
  by_cases hea : e.1 = a
  · rw [if_pos hea, if_pos (by simp : ((a : Nat), if e.2.keys.contains k = true then
        { e.2 with fields := e.2.fields.map (fun f => if f.1 = k then (k, v) else f) }
      else { e.2 with fields := e.2.fields ++ [(k, v)] }).1 = a)]
    by_cases hc : e.2.keys.contains k = true
    · rw [if_pos hc]
      have hc2 : ({ e.2 with
          fields := e.2.fields.map (fun f => if f.1 = k then (k, v) else f) } : Obj).keys.contains k = true := by
        unfold Obj.keys at hc ⊢
        simp only
        rw [rep_map_fst]
        exact hc
      rw [if_pos hc2]
      simp only [Prod.mk.injEq, true_and]
      rw [Obj.mk.injEq]
      refine ⟨rfl, ?_, rfl⟩
      exact rep_map_self e.2.fields k v
    · rw [if_neg hc]
      have hc2 : ({ e.2 with fields := e.2.fields ++ [(k, v)] } : Obj).keys.contains k
          = true := by
        unfold Obj.keys
        simp
      rw [if_pos hc2]
      simp only [Prod.mk.injEq, true_and]
      rw [Obj.mk.injEq]
      refine ⟨rfl, ?_, rfl⟩
      rw [List.map_append]
      have h1 : e.2.fields.map (fun f => if f.1 = k then (k, v) else f) = e.2.fields := by
        apply map_eq_self_of
        intro f hf
        have hfk : f.1 ≠ k :=
          contains_fst_not_mem (Bool.eq_false_iff.mpr (by simpa [Obj.keys] using hc)) f hf
        rw [if_neg hfk]
      rw [h1]
      simp
  · rw [if_neg hea, if_neg hea]

theorem find?_key_unique {α β : Type} [BEq α] [LawfulBEq α] (L : List (α × β))
    (hn : (L.map Prod.fst).Nodup) (a : α) (w : α × β)
    (hw : L.find? (fun x => x.1 == a) = some w)
    (e : α × β) (he : e ∈ L) (hea : e.1 = a) : e = w := by
  induction L with
  | nil => cases he
  | cons x rest ih =>
    rw [List.map_cons, List.nodup_cons] at hn
    by_cases hxa : x.1 = a
    · rw [List.find?_cons_of_pos _ (by simpa using hxa)] at hw
      have hxw : x = w := by simpa using hw
      rcases List.mem_cons.mp he with he1 | he2
      · rw [he1, hxw]
      · exfalso
        apply hn.1
        rw [List.mem_map]
        exact ⟨e, he2, by rw [hea, hxa]⟩
    · rw [List.find?_cons_of_neg _ (by simpa using hxa)] at hw
      rcases List.mem_cons.mp he with he1 | he2
      · rw [he1] at hea
        exact absurd hea hxa
      · exact ih hn.2 hw he2

theorem setField_same (h : Heap) (a : Nat) (k : String) (oa : Obj)
    (haddr : (h.objs.map Prod.fst).Nodup)
    (hl : h.lookup a = some oa)
    (hkeys : (oa.fields.map Prod.fst).Nodup)
    (e0 : String × Val) (hf : oa.fields.find? (fun e => e.1 == k) = some e0) :
    h.setField a k e0.2 = h := by
  unfold Heap.lookup at hl
  rw [Option.map_eq_some'] at hl
  obtain ⟨w, hw, hw2⟩ := hl
  have h0k : e0.1 = k := by simpa using List.find?_some hf
  have hc : oa.keys.contains k = true := by
    unfold Obj.keys
    have hm : k ∈ oa.fields.map Prod.fst :=
      List.mem_map.mpr ⟨e0, List.mem_of_find?_eq_some hf, h0k⟩
    simpa using hm
  have hgoal : h.objs.map (fun e =>
      if e.1 = a then
        (a, if e.2.keys.contains k then
            { e.2 with fields := e.2.fields.map (fun f => if f.1 = k then (k, e0.2) else f) }
          else { e.2 with fields := e.2.fields ++ [(k, e0.2)] })
      else e) = h.objs := by
    apply map_eq_self_of
    intro e he
    by_cases hea : e.1 = a
    · rw [if_pos hea]
      have hew : e = w := find?_key_unique h.objs haddr a w hw e he hea
      have he2 : e.2 = oa := by rw [hew, hw2]
      rw [he2, if_pos hc]
      have hmap : oa.fields.map (fun f => if f.1 = k then (k, e0.2) else f)
          = oa.fields := by
        apply map_eq_self_of
        intro f hfm
        by_cases hfk : f.1 = k
        · have hfe : f = e0 := find?_key_unique oa.fields hkeys k e0 hf f hfm hfk
          rw [hfe, if_pos h0k]
          exact Prod.ext h0k.symm rfl
        · rw [if_neg hfk]
      rw [hmap]
      rw [← hea, ← he2]
    · rw [if_neg hea]
  unfold Heap.setField
  rw [hgoal]
theorem assign_prim_first (S S1 : Store) (p tok : String) (v : Val) (ra d : Nat)
    (nd : NodeData) (fuel : Nat)
    (htok : splitDot p = [tok])
    (hpd : S.pathData.find? (fun e => e.1 == p) = none)
    (hdata : S.data = .ref ra)
    (hit : S.isTrav = true)
    (hnode : treeGet S.tree [tok] = some nd)
    (hdep : nd.dep = some d)
    (hcds : S.changeDeps = [])
    (hop : S.opCount = 0)
    (hvp : instanceOfObject v = false)
    (hvd : v ≠ .sDELETE)
    (hvc : v ≠ .sCANCEL)
    (h1 : S.assign fuel [(p, v)] = some S1) :
    S1.pathData = S.pathData ++ [(p, ⟨[tok], none, none⟩)] ∧
    S1.heap = S.heap.setField ra tok v ∧
    S1.data = S.data ∧ S1.isTrav = S.isTrav ∧ S1.opCount = 0 ∧
    S1.changeDeps = [] ∧ S1.noMutate = S.noMutate ∧ S1.nextDepId = S.nextDepId ∧
    S1.nextAbsId = S.nextAbsId ∧
    (valAt S.heap (.ref ra) tok ≠ v → S1.fired.count d = S.fired.count d + 1) ∧
    (valAt S.heap (.ref ra) tok = v → S1.fired = S.fired) := by
  unfold Store.assign Store.watchChanges at h1
  simp only [List.foldl_cons, List.foldl_nil, Option.some_bind] at h1
  unfold Store.setAtPath Store.getPathData at h1
  simp only at h1
  rw [hpd] at h1
  dsimp only at h1
  rw [htok] at h1
  simp only [ite_self] at h1
  rw [if_neg hvc] at h1
  rw [hit] at h1
  simp only [Bool.not_true] at h1
  rw [if_neg Bool.false_ne_true] at h1
  rw [hdata] at h1
  simp only [Val.addr?] at h1
  simp only [setAtPathGo] at h1
  have hud : decide (v = Val.sDELETE) = false := decide_eq_false hvd
  rw [hud] at h1
  simp only [Bool.not_false, Bool.true_or] at h1
  simp only [if_true] at h1
  rw [if_neg Bool.false_ne_true] at h1
  have hsd : subDepAt S.tree (some []) tok = some [tok] := by
    unfold subDepAt
    simp [treeHas_of_treeGet _ _ _ hnode]
  rw [hsd] at h1
  unfold Store.diffSt at h1
  dsimp only at h1
  rw [hcds] at h1
  rw [Option.map_eq_some'] at h1
  obtain ⟨w2, hw2, hfl⟩ := h1
  rw [Option.map_eq_some'] at hw2
  obtain ⟨w1, hw1, hw2e⟩ := hw2
  rw [Option.map_eq_some'] at hw1
  obtain ⟨rr, htc, hw1e⟩ := hw1
  have hpin : valAt S.heap (.ref ra) tok = v →
      rr = (⟨S.tree, []⟩, [], false) := by
    intro heq
    rw [heq] at htc
    rcases fuel with _ | fuel1
    · simp [triggerChangedDeps] at htc
    · rcases fuel1 with _ | k
      · simp [triggerChangedDeps, triggerAllDeps, hvp] at htc
      · rw [triggerChangedDeps_prim_refl _ k _ _ _ _ hvp] at htc
        exact (Option.some.inj htc).symm
  subst hw1e
  dsimp only at hw2e
  by_cases hch : rr.2.2 = true
  · rw [if_pos hch] at hw2e
    simp only [List.foldl_cons, List.foldl_nil] at hw2e
    unfold Store.putDiff at hw2e
    dsimp only at hw2e
    have hinv := triggerChangedDeps_inv (S.heap.setField ra tok v) fuel
      ⟨S.tree, []⟩ (some [tok]) (valAt S.heap (.ref ra) tok) v [] rr htc
    have hrr_d : d ∈ rr.1.cds := hinv.2 hch [tok] nd d rfl hnode hdep
    obtain ⟨_, hnodup, _, _⟩ := hinv.1
    have hrr_nodup : rr.1.cds.Nodup := hnodup List.nodup_nil
    obtain ⟨⟨e3, he3, _⟩, hnd3, _, _⟩ :=
      registerChange_diffExt rr.1 (some []) Val.objectCtor
    have hd3 : d ∈ (registerChange rr.1 (some []) Val.objectCtor).cds := by
      rw [he3]
      exact List.mem_append_left _ hrr_d
    have hn3 : (registerChange rr.1 (some []) Val.objectCtor).cds.Nodup :=
      hnd3 hrr_nodup
    have hemp : (registerChange rr.1 (some []) Val.objectCtor).cds.isEmpty = false := by
      cases hecl : (registerChange rr.1 (some []) Val.objectCtor).cds with
      | nil =>
        rw [hecl] at hd3
        cases hd3
      | cons x l => rfl
    have heta : ({ tree := rr.1.tree, cds := rr.1.cds } : DiffSt) = rr.1 := rfl
    rw [heta] at hw2e
    subst hw2e
    dsimp only at hfl
    simp only [hop, Nat.zero_add, Nat.sub_self] at hfl
    rw [hemp] at hfl
    simp only [Bool.not_false, Bool.and_true] at hfl
    rw [if_pos (show ((0 : Nat) == 0) = true from rfl)] at hfl
    subst hfl
    refine ⟨rfl, rfl, hdata.symm, hit.symm, rfl, rfl, rfl, rfl, rfl, ?_, ?_⟩
    · intro hne
      show (S.fired ++ (registerChange rr.1 (some []) Val.objectCtor).cds).count d
        = S.fired.count d + 1
      rw [List.count_append]
      congr 1
      exact List.count_eq_one_of_mem hn3 hd3
    · intro heq
      have hp := hpin heq
      rw [hp] at hch
      simp at hch
  · have hne : valAt S.heap (.ref ra) tok = v := by
      by_contra hne
      exact hch (triggerChangedDeps_changed_of_ne _ _ _ _ _ _ _ hvp hne htc)
    have hp := hpin hne
    subst hp
    unfold Store.putDiff at hw2e
    dsimp only at hw2e
    rw [if_neg Bool.false_ne_true] at hw2e
    subst hw2e
    dsimp only at hfl
    simp only [hop, Nat.zero_add, Nat.sub_self, List.isEmpty_nil, Bool.not_true,
      Bool.and_false] at hfl
    rw [if_neg Bool.false_ne_true] at hfl
    subst hfl
    refine ⟨rfl, rfl, hdata.symm, hit.symm, rfl, rfl, rfl, rfl, rfl, ?_, ?_⟩
    · intro hne2
      exact absurd hne hne2
    · intro _
      rfl
theorem assign_noop_second (S1 S2 : Store) (p tok : String) (v : Val) (ra : Nat)
    (k : Nat)
    (hpd1 : S1.pathData.find? (fun e => e.1 == p)
      = some (p, ⟨[tok], none, none⟩))
    (hdata1 : S1.data = .ref ra)
    (hit1 : S1.isTrav = true)
    (hval : valAt S1.heap (.ref ra) tok = v)
    (hheapid : S1.heap.setField ra tok v = S1.heap)
    (hcds1 : S1.changeDeps = [])
    (hop1 : S1.opCount = 0)
    (hvp : instanceOfObject v = false)
    (hvd : v ≠ .sDELETE)
    (hvc : v ≠ .sCANCEL)
    (h2 : S1.assign (k + 2) [(p, v)] = some S2) :
    S2 = S1 := by
  obtain ⟨dta, hp, istr, tr, cds, opc, nm, pdl, ndi, nai, fr⟩ := S1
  dsimp only at hpd1 hdata1 hit1 hval hheapid hcds1 hop1 h2
  subst hdata1
  subst hit1
  subst hcds1
  subst hop1
  unfold Store.assign Store.watchChanges at h2
  simp only [List.foldl_cons, List.foldl_nil, Option.some_bind] at h2
  unfold Store.setAtPath Store.getPathData at h2
  simp only at h2
  rw [hpd1] at h2
  dsimp only at h2
  simp only [ite_self] at h2
  rw [if_neg hvc] at h2
  simp only [Bool.not_true] at h2
  rw [if_neg Bool.false_ne_true] at h2
  simp only [Val.addr?] at h2
  simp only [setAtPathGo] at h2
  have hud : decide (v = Val.sDELETE) = false := decide_eq_false hvd
  rw [hud] at h2
  simp only [Bool.not_false, Bool.true_or, if_true] at h2
  rw [if_neg Bool.false_ne_true] at h2
  rw [hheapid] at h2
  rw [hval] at h2
  unfold Store.diffSt at h2
  dsimp only at h2
  rw [triggerChangedDeps_prim_refl hp k _ _ v [] hvp] at h2
  simp only [Option.map_some'] at h2
  try dsimp only at h2
  rw [if_neg Bool.false_ne_true] at h2
  unfold Store.putDiff at h2
  try dsimp only at h2
  simp only [Nat.zero_add, Nat.sub_self, List.isEmpty_nil, Bool.not_true,
    Bool.and_false] at h2
  rw [if_neg Bool.false_ne_true] at h2
  exact (Option.some.inj h2).symm
/-- C3 counterexample: assigning the same object value (a reference) twice
in a row notifies the path subscriber on both calls - the identical
reference is treated as changed - so the total is two notifications, not
one. -/
theorem C3_counterexample_object_assign_notifies_twice :
    ((exAsgStore.assign 9 [("a", .ref 5)]).bind fun S =>
        S.assign 9 [("a", .ref 5)]).map (fun S => S.fired.count 7) = some 2 := by
  decide

/-- C3 (amended): for a primitive (non-Object, non-sentinel) value v
assigned at a mutator-free single-token path of a traversable root,
calling assign twice in a row notifies a subscriber on the path exactly
once in total: the second call returns a state identical to the first,
and the first call fires the path dependency exactly once when the stored
value differed (and not at all when it was already equal). -/
theorem C3_assign_idempotent_primitive (S S1 S2 : Store) (p tok : String)
    (v : Val) (ra d : Nat) (oa : Obj) (nd : NodeData) (fuel : Nat)
    (htok : splitDot p = [tok])
    (hpd : S.pathData.find? (fun e => e.1 == p) = none)
    (hdata : S.data = .ref ra)
    (hl : S.heap.lookup ra = some oa)
    (hit : S.isTrav = true)
    (hnode : treeGet S.tree [tok] = some nd)
    (hdep : nd.dep = some d)
    (hcds : S.changeDeps = [])
    (hop : S.opCount = 0)
    (hvp : instanceOfObject v = false)
    (hvd : v ≠ .sDELETE)
    (hvc : v ≠ .sCANCEL)
    (hfuel : 2 ≤ fuel)
    (h1 : S.assign fuel [(p, v)] = some S1)
    (h2 : S1.assign fuel [(p, v)] = some S2) :
    S2 = S1 ∧
    (valAt S.heap (.ref ra) tok ≠ v → S1.fired.count d = S.fired.count d + 1) ∧
    (valAt S.heap (.ref ra) tok = v → S1.fired = S.fired) := by
  obtain ⟨hpdl, hheap, hdat1, hit1, hop1, hcds1, hnm1, _, _, hcnt, hfeq⟩ :=
    assign_prim_first S S1 p tok v ra d nd fuel htok hpd hdata hit hnode hdep
      hcds hop hvp hvd hvc h1
  obtain ⟨k, hk⟩ : ∃ k, fuel = k + 2 := ⟨fuel - 2, by omega⟩
  subst hk
  refine ⟨?_, hcnt, hfeq⟩
  refine assign_noop_second S1 S2 p tok v ra k ?_ ?_ ?_ ?_ ?_ hcds1 hop1
    hvp hvd hvc h2
  · rw [hpdl]
    rw [find?_append_right _ _ _ (fun x hx => by
      have hnx := List.find?_eq_none.mp hpd x hx
      simpa using hnx)]
    simp
  · rw [hdat1, hdata]
  · rw [hit1, hit]
  · rw [hheap]
    exact valAt_setField_self S.heap ra tok v oa hl
  · rw [hheap]
    exact setField_idem S.heap ra tok v

/-- Concrete instance of the amended C3 idempotence theorem. -/
theorem C3_assign_idempotent_primitive_witness :
    ∃ S1 S2, exAsgStore.assign 9 [("a", Val.num 2)] = some S1 ∧
      S1.assign 9 [("a", Val.num 2)] = some S2 ∧
      S2 = S1 ∧ S1.fired.count 7 = exAsgStore.fired.count 7 + 1 := by
  cases hs : ((exAsgStore.assign 9 [("a", Val.num 2)]).bind fun S =>
      S.assign 9 [("a", Val.num 2)]) with
  | none =>
    have hns : ((exAsgStore.assign 9 [("a", Val.num 2)]).bind fun S =>
        S.assign 9 [("a", Val.num 2)]).isSome = true := by decide
    rw [hs] at hns
    simp at hns
  | some S2 =>
    rw [Option.bind_eq_some] at hs
    obtain ⟨S1, h1, h2⟩ := hs
    have hmain := C3_assign_idempotent_primitive exAsgStore S1 S2 "a" "a"
      (Val.num 2) 0 7 ⟨.object, [], false⟩ ⟨some 7, none, none⟩ 9
      (by decide) rfl rfl (by decide) rfl (by decide) rfl rfl rfl
      rfl (by decide) (by decide) (by decide) h1 h2
    exact ⟨S1, S2, h1, h2, hmain.1, hmain.2.1 (by decide)⟩
theorem setAtPathGo_unset_noop (fuel : Nat) (v : Val) :
    ∀ (tokens : List String) (a : Nat) (deps : Option (List String))
      (parents : List (List String)) (Sx : Store),
      existsAtPath Sx.heap a tokens = false →
      setAtPathGo fuel true v tokens a deps parents Sx = some Sx := by
  intro tokens
  induction tokens with
  | nil =>
    intro a deps parents Sx hex
    rfl
  | cons t rest ih =>
    intro a deps parents Sx hex
    cases rest with
    | nil =>
      simp only [existsAtPath] at hex
      simp only [setAtPathGo]
      rw [show (!true || propEnum Sx.heap (.ref a) t) = false by
        rw [hex]; rfl]
      rw [if_neg Bool.false_ne_true]
    | cons u rest2 =>
      simp only [existsAtPath, Bool.and_eq_false_iff] at hex
      simp only [setAtPathGo]
      rcases hex with hex | hex
      · rw [hex, if_neg Bool.false_ne_true]
        simp only [if_true]
      · by_cases htr : isTraversable Sx.heap (valAt Sx.heap (.ref a) t) = true
        · rw [if_pos htr]
          exact ih _ _ _ _ hex
        · rw [if_neg htr]
          simp only [if_true]
theorem find?_map_entry_none (g : Obj → Obj) (L : List (Nat × Obj)) (a : Nat)
    (hl : L.find? (fun e => e.1 == a) = none) :
    (L.map (fun e => if e.1 = a then (a, g e.2) else e)).find? (fun e => e.1 == a)
      = none := by
  induction L with
  | nil => rfl
  | cons e rest ih =>
    by_cases hea : e.1 = a
    · rw [List.find?_cons_of_pos _ (by simpa using hea)] at hl
      cases hl
    · rw [List.find?_cons_of_neg _ (by simpa using hea)] at hl
      rw [List.map_cons, if_neg hea, List.find?_cons_of_neg _ (by simpa using hea)]
      exact ih hl

theorem lookup_removeField_self (h : Heap) (a : Nat) (k : String) (oa : Obj)
    (hl : h.lookup a = some oa) :
    (h.removeField a k).lookup a
      = some { oa with fields := oa.fields.filter (fun f => f.1 ≠ k) } := by
  unfold Heap.lookup at hl ⊢
  unfold Heap.removeField
  simp only
  exact find?_map_entry
    (fun o => { o with fields := o.fields.filter (fun f => f.1 ≠ k) })
    h.objs a oa hl

theorem removeField_propEnum_self (h : Heap) (a : Nat) (k : String) :
    propEnum (h.removeField a k) (.ref a) k = false := by
  unfold propEnum Heap.objAt
  dsimp only
  cases hl : h.lookup a with
  | none =>
    have hn : (h.removeField a k).lookup a = none := by
      unfold Heap.lookup at hl ⊢
      rw [Option.map_eq_none'] at hl
      unfold Heap.removeField
      simp only
      rw [Option.map_eq_none']
      exact find?_map_entry_none
        (fun o => { o with fields := o.fields.filter (fun f => f.1 ≠ k) })
        h.objs a hl
    rw [hn]
  | some oa =>
    rw [lookup_removeField_self h a k oa hl]
    unfold Obj.keys
    dsimp only
    cases hc : ((oa.fields.filter (fun f => f.1 ≠ k)).map Prod.fst).contains k
    · rfl
    · exfalso
      obtain ⟨f, hf, hfk⟩ := contains_fst_mem hc
      have := (List.mem_filter.mp hf).2
      simp [hfk] at this

theorem regFold_diffExt (P : List String → Prop) (v : Val) :
    ∀ (ps : List (List String)) (st0 : DiffSt),
      (∀ q ∈ ps, P q) →
      DiffExt P st0 (ps.foldl (fun st q => registerChange st (some q) v) st0) := by
  intro ps
  induction ps with
  | nil =>
    intro st0 h
    exact DiffExt_refl st0
  | cons q rest ih =>
    intro st0 h
    rw [List.foldl_cons]
    refine DiffExt_trans ?_ (ih _ (fun r hr => h r (List.mem_cons_of_mem q hr)))
    refine DiffExt_mono ?_ (registerChange_diffExt st0 (some q) v)
    intro x hx
    exact (Option.some.inj hx) ▸ h q (List.mem_cons_self q rest)

theorem DiffExt_cds_mono {P : List String → Prop} {st st2 : DiffSt}
    (h : DiffExt P st st2) (d : Nat) (hd : d ∈ st.cds) : d ∈ st2.cds := by
  obtain ⟨⟨e, he, _⟩, _, _, _⟩ := h
  rw [he]
  exact List.mem_append_left _ hd
theorem setAtPathGo_unset_exists (fuel : Nat) (v : Val) (full : List String) :
    ∀ (tokens : List String) (a : Nat) (pp : List String)
      (parents : List (List String)) (Sx out : Store),
      pp ++ tokens = full →
      (∀ q ∈ parents, q <+: full) →
      (∀ q, pp <+: q → q <+: full → q ≠ pp → treeHas Sx.tree q = true) →
      existsAtPath Sx.heap a tokens = true →
      setAtPathGo fuel true v tokens a (some pp) parents Sx = some out →
      tokens ≠ [] →
      (out.pathData = Sx.pathData ∧ out.data = Sx.data ∧ out.isTrav = Sx.isTrav ∧
        out.opCount = Sx.opCount ∧ out.noMutate = Sx.noMutate ∧
        out.nextDepId = Sx.nextDepId ∧ out.nextAbsId = Sx.nextAbsId ∧
        out.fired = Sx.fired) ∧
      (∃ a2 t2, (routeAddrs Sx.heap a tokens).getLast? = some a2 ∧
        tokens.getLast? = some t2 ∧
        out.heap = Sx.heap.removeField a2 t2 ∧
        propEnum out.heap (.ref a2) t2 = false) ∧
      DiffExt (fun q => q <+: full ∨ full <+: q) ⟨Sx.tree, Sx.changeDeps⟩
        ⟨out.tree, out.changeDeps⟩ ∧
      (∀ ndf df, treeGet Sx.tree full = some ndf → ndf.dep = some df →
        df ∈ out.changeDeps) := by
  intro tokens
  induction tokens with
  | nil =>
    intro a pp parents Sx out heq hpar hchain hex hout hne
    exact absurd rfl hne
  | cons t rest ih =>
    intro a pp parents Sx out heq hpar hchain hex hout hne
    cases rest with
    | nil =>
      subst heq
      simp only [existsAtPath] at hex
      simp only [setAtPathGo] at hout
      rw [hex] at hout
      simp only [Bool.not_true, Bool.false_or, if_true] at hout
      have hhas : treeHas Sx.tree (pp ++ [t]) = true := by
        refine hchain (pp ++ [t]) (List.prefix_append pp [t]) (List.prefix_refl _) ?_
        intro hq
        have := congrArg List.length hq
        simp at this
      have hsd : subDepAt Sx.tree (some pp) t = some (pp ++ [t]) := by
        simp only [subDepAt]
        rw [hhas]
        simp
      rw [hsd] at hout
      unfold Store.diffSt at hout
      dsimp only at hout
      rw [Option.map_eq_some'] at hout
      obtain ⟨r2, hr2, hr2e⟩ := hout
      rw [Option.map_eq_some'] at hr2
      obtain ⟨r, hta, hre⟩ := hr2
      subst hre
      dsimp only at hr2e
      rw [if_pos rfl] at hr2e
      unfold Store.putDiff at hr2e
      dsimp only at hr2e
      subst hr2e
      have heta2 : (⟨(registerChange r.1 (some (pp ++ [t])) Val.undef).tree,
          (registerChange r.1 (some (pp ++ [t])) Val.undef).cds⟩ : DiffSt)
          = registerChange r.1 (some (pp ++ [t])) Val.undef := rfl
      have hD1 : DiffExt (fun q => q <+: pp ++ [t] ∨ pp ++ [t] <+: q)
          ⟨Sx.tree, Sx.changeDeps⟩ r.1 := by
        refine DiffExt_mono ?_ (triggerAllDeps_inv _ fuel _ _ _ _ _ _ hta)
        intro q hq
        obtain ⟨p0, hp0, hpre⟩ := hq
        rw [← Option.some.inj hp0] at hpre
        exact Or.inr hpre
      have hD2 : DiffExt (fun q => q <+: pp ++ [t] ∨ pp ++ [t] <+: q)
          r.1 (registerChange r.1 (some (pp ++ [t])) Val.undef) := by
        refine DiffExt_mono ?_ (registerChange_diffExt _ _ _)
        intro q hq
        rw [← Option.some.inj hq]
        exact Or.inr (List.prefix_refl _)
      have hD3 : DiffExt (fun q => q <+: pp ++ [t] ∨ pp ++ [t] <+: q)
          (registerChange r.1 (some (pp ++ [t])) Val.undef)
          (parents.foldl (fun st q => registerChange st (some q) Val.objectCtor)
            (registerChange r.1 (some (pp ++ [t])) Val.undef)) :=
        regFold_diffExt _ Val.objectCtor parents _ (fun q hq => Or.inl (hpar q hq))
      refine ⟨⟨rfl, rfl, rfl, rfl, rfl, rfl, rfl, rfl⟩, ?_, ?_, ?_⟩
      · refine ⟨a, t, ?_, rfl, rfl, ?_⟩
        · simp [routeAddrs]
        · exact removeField_propEnum_self Sx.heap a t
      · rw [heta2]
        exact DiffExt_trans (DiffExt_trans hD1 hD2) hD3
      · intro ndf df hgf hdf
        obtain ⟨nd2, hg2, hdep2⟩ := DiffExt_treeGet hD1 (pp ++ [t]) ndf df hgf hdf
        have hmem := registerChange_dep_mem r.1 (pp ++ [t]) nd2 df Val.undef hg2 hdep2
        show df ∈ (parents.foldl (fun st q => registerChange st (some q) Val.objectCtor)
          (⟨(registerChange r.1 (some (pp ++ [t])) Val.undef).tree,
            (registerChange r.1 (some (pp ++ [t])) Val.undef).cds⟩ : DiffSt)).cds
        rw [heta2]
        exact DiffExt_cds_mono hD3 df hmem
    | cons u rest2 =>
      simp only [existsAtPath, Bool.and_eq_true] at hex
      obtain ⟨htr, hex2⟩ := hex
      simp only [setAtPathGo] at hout
      have hpre1 : (pp ++ [t]) ++ (u :: rest2) = full := by
        rw [List.append_assoc]
        exact heq
      have hhas : treeHas Sx.tree (pp ++ [t]) = true := by
        refine hchain (pp ++ [t]) (List.prefix_append pp [t]) ⟨u :: rest2, hpre1⟩ ?_
        intro hqe
        have := congrArg List.length hqe
        simp at this
      rw [hhas] at hout
      simp only [if_true] at hout
      rw [if_pos htr] at hout
      try dsimp only at hout
      have hres := ih ((valAt Sx.heap (.ref a) t).addr?.getD 0) (pp ++ [t])
        (parents ++ [pp ++ [t]]) Sx out hpre1
        (fun q hq => by
          rcases List.mem_append.mp hq with hq | hq
          · exact hpar q hq
          · rw [List.mem_singleton.mp hq]
            exact ⟨u :: rest2, hpre1⟩)
        (fun q hq1 hq2 hqne => by
          refine hchain q ((List.prefix_append pp [t]).trans hq1) hq2 ?_
          intro hqpp
          subst hqpp
          have := hq1.length_le
          simp at this)
        hex2 hout (by simp)
      refine ⟨hres.1, ?_, hres.2.2.1, hres.2.2.2⟩
      obtain ⟨a2, t2, hroute, htok2, hheap2, hpe2⟩ := hres.2.1
      refine ⟨a2, t2, ?_, ?_, hheap2, hpe2⟩
      · rw [show routeAddrs Sx.heap a (t :: u :: rest2)
            = a :: routeAddrs Sx.heap ((valAt Sx.heap (.ref a) t).addr?.getD 0)
              (u :: rest2) from rfl]
        cases hrv : routeAddrs Sx.heap ((valAt Sx.heap (.ref a) t).addr?.getD 0)
            (u :: rest2) with
        | nil =>
          cases rest2 <;> simp [routeAddrs] at hrv
        | cons x l =>
          rw [hrv] at hroute
          rw [List.getLast?_cons_cons]
          exact hroute
      · rw [List.getLast?_cons_cons]
        exact htok2
/-- C7 (amended): delete on a mutator-free path of a traversable root is a
no-op for a nonexistent path; for an existing path it removes exactly the
final key of the walked container, fires the path node dependency when the
full dependency-node chain exists, and every identifier fired by the call
belongs to a dependency node whose path is a prefix or an extension of the
deleted path (sibling subscribers never fire); existing nodes strictly
below the path are not all fired (see the counterexample). -/
theorem C7_delete (S S' : Store) (p : String) (toks : List String) (ra : Nat)
    (fuel : Nat)
    (htok : splitDot p = toks)
    (hpd : S.pathData.find? (fun e => e.1 == p) = none)
    (hdata : S.data = .ref ra)
    (hit : S.isTrav = true)
    (hcds : S.changeDeps = [])
    (hop : S.opCount = 0)
    (hdel : S.delete fuel [p] = some S') :
    (existsAtPath S.heap ra toks = false →
      S'.heap = S.heap ∧ S'.tree = S.tree ∧ S'.changeDeps = S.changeDeps ∧
      S'.fired = S.fired) ∧
    (existsAtPath S.heap ra toks = true →
      (∀ q, q <+: toks → q ≠ [] → treeHas S.tree q = true) →
      (∃ a2 t2, (routeAddrs S.heap ra toks).getLast? = some a2 ∧
        toks.getLast? = some t2 ∧ S'.heap = S.heap.removeField a2 t2 ∧
        propEnum S'.heap (.ref a2) t2 = false) ∧
      S'.tree.map Prod.fst = S.tree.map Prod.fst ∧ S'.changeDeps = [] ∧
      (∃ newIds, S'.fired = S.fired ++ newIds ∧
        ∀ x ∈ newIds, ∃ q ndq, (q <+: toks ∨ toks <+: q) ∧
          treeGet S.tree q = some ndq ∧ x ∈ nodeIds ndq) ∧
      (∀ ndf df, treeGet S.tree toks = some ndf → ndf.dep = some df →
        df ∈ S'.fired)) := by
  unfold Store.delete at hdel
  rw [hit] at hdel
  rw [if_pos rfl] at hdel
  unfold Store.watchChanges at hdel
  simp only [List.foldl_cons, List.foldl_nil, Option.some_bind] at hdel
  unfold Store.setAtPath Store.getPathData at hdel
  simp only at hdel
  rw [hpd] at hdel
  dsimp only at hdel
  rw [htok] at hdel
  simp only [ite_self] at hdel
  rw [if_neg (by decide : ¬ (Val.sDELETE = Val.sCANCEL))] at hdel
  rw [show (decide True) = true from rfl] at hdel
  rw [hit] at hdel
  simp only [Bool.not_true] at hdel
  rw [if_neg Bool.false_ne_true] at hdel
  rw [hdata] at hdel
  simp only [Val.addr?] at hdel
  rw [Option.map_eq_some'] at hdel
  obtain ⟨out, hwalk, hfl⟩ := hdel
  constructor
  · intro hex
    have hnoop := setAtPathGo_unset_noop fuel Val.sDELETE toks ra (some []) [[]]
      { data := Val.ref ra, heap := S.heap, isTrav := true, tree := S.tree,
        changeDeps := S.changeDeps, opCount := S.opCount + 1, noMutate := S.noMutate,
        pathData := S.pathData ++ [(p, ⟨toks, none, none⟩)],
        nextDepId := S.nextDepId, nextAbsId := S.nextAbsId, fired := S.fired }
      hex
    rw [hnoop] at hwalk
    have he := Option.some.inj hwalk
    subst he
    dsimp only at hfl
    rw [hcds] at hfl
    simp only [List.isEmpty_nil, Bool.not_true, Bool.and_false] at hfl
    rw [if_neg Bool.false_ne_true] at hfl
    subst hfl
    exact ⟨rfl, rfl, hcds.symm, rfl⟩
  · intro hex hchain
    have hne : toks ≠ [] := by
      intro h0
      rw [h0] at hex
      simp [existsAtPath] at hex
    have hres := setAtPathGo_unset_exists fuel Val.sDELETE toks toks ra [] [[]]
      { data := Val.ref ra, heap := S.heap, isTrav := true, tree := S.tree,
        changeDeps := S.changeDeps, opCount := S.opCount + 1, noMutate := S.noMutate,
        pathData := S.pathData ++ [(p, ⟨toks, none, none⟩)],
        nextDepId := S.nextDepId, nextAbsId := S.nextAbsId, fired := S.fired }
      out rfl
      (fun q hq => by
        rw [List.mem_singleton.mp hq]
        exact List.nil_prefix ..)
      (fun q _ h2 h3 => hchain q h2 h3)
      hex hwalk hne
    obtain ⟨⟨hpd1, hdat1, hit1, hop1, hnm1, hnd1, hna1, hfr1⟩, hrem, hdx, hdep⟩ := hres
    rw [hop1] at hfl
    dsimp only at hfl
    simp only [hop, Nat.zero_add, Nat.sub_self] at hfl
    obtain ⟨⟨e, he, hsrc⟩, _, hmapf, _⟩ := hdx
    cases hemp : out.changeDeps.isEmpty with
    | true =>
      have hcnil : out.changeDeps = [] := by
        simpa using hemp
      rw [hemp] at hfl
      simp only [Bool.not_true, Bool.and_false] at hfl
      rw [if_neg Bool.false_ne_true] at hfl
      subst hfl
      refine ⟨hrem, hmapf, ?_, ⟨[], ?_, by simp⟩, ?_⟩
      · show out.changeDeps = []
        exact hcnil
      · show out.fired = S.fired ++ []
        rw [List.append_nil]
        exact hfr1
      · intro ndf df hgf hdf
        have hd := hdep ndf df hgf hdf
        rw [hcnil] at hd
        cases hd
    | false =>
      rw [hemp] at hfl
      simp only [Bool.not_false, Bool.and_true] at hfl
      rw [if_pos (show ((0 : Nat) == 0) = true from rfl)] at hfl
      subst hfl
      have he2 : out.changeDeps = S.changeDeps ++ e := he
      rw [hcds, List.nil_append] at he2
      refine ⟨hrem, hmapf, rfl, ⟨out.changeDeps, ?_, ?_⟩, ?_⟩
      · show out.fired ++ out.changeDeps = S.fired ++ out.changeDeps
        rw [hfr1]
      · intro x hx
        rw [he2] at hx
        exact hsrc x hx
      · intro ndf df hgf hdf
        have hd := hdep ndf df hgf hdf
        show df ∈ out.fired ++ out.changeDeps
        exact List.mem_append_right _ hd
/-- C7 counterexample: deleting the existing path a removes it and fires
the node of a (dep 2), but the existing dependency node a.x.y strictly
below the deleted path (dep 5) is never notified, refuting the claim that
every existing node below the path is notified. -/
theorem C7_counterexample_subnode_not_notified :
    (exDelStore.delete 9 ["a"]).map
      (fun S => (existsAtPath S.heap 0 ["a"], S.fired.contains 2,
        S.fired.contains 5)) = some (false, true, false) := by
  decide

/-- Concrete instance of the amended C7 delete theorem. -/
theorem C7_delete_witness :
    ∃ S', exDelStore.delete 9 ["a"] = some S' ∧
      (∃ a2 t2, (routeAddrs exDelStore.heap 0 ["a"]).getLast? = some a2 ∧
        (["a"] : List String).getLast? = some t2 ∧
        S'.heap = exDelStore.heap.removeField a2 t2 ∧
        propEnum S'.heap (.ref a2) t2 = false) ∧
      (∀ ndf df, treeGet exDelStore.tree ["a"] = some ndf → ndf.dep = some df →
        df ∈ S'.fired) := by
  cases hs : exDelStore.delete 9 ["a"] with
  | none =>
    have hss : (exDelStore.delete 9 ["a"]).isSome = true := by decide
    rw [hs] at hss
    simp at hss
  | some S' =>
    have hmain := C7_delete exDelStore S' "a" ["a"] 0 9 (by decide) rfl rfl rfl
      rfl rfl hs
    have hb := hmain.2 (by decide) (by
      intro q hq hqne
      obtain ⟨s, hsapp⟩ := hq
      cases q with
      | nil => exact absurd rfl hqne
      | cons x xs =>
        rw [List.cons_append] at hsapp
        injection hsapp with h1 h2
        have hxs : xs = [] := (List.append_eq_nil.mp h2).1
        subst h1
        subst hxs
        decide)
    exact ⟨S', rfl, hb.1, fun ndf df h1 h2 => hb.2.2.2.2 ndf df h1 h2⟩
theorem nodup_subset_length_le (l1 l2 : List Nat) (h1 : l1.Nodup)
    (h2 : ∀ x ∈ l1, x ∈ l2) : l1.length ≤ l2.length :=
  (List.Nodup.subperm h1 h2).length_le

theorem mem_dom_of_lookup (h : Heap) (a : Nat) (o : Obj)
    (hl : h.lookup a = some o) : a ∈ h.objs.map Prod.fst := by
  unfold Heap.lookup at hl
  rw [Option.map_eq_some'] at hl
  obtain ⟨e, he, _⟩ := hl
  have hea : e.1 = a := by simpa using List.find?_some he
  exact List.mem_map.mpr ⟨e, List.mem_of_find?_eq_some he, hea⟩

theorem trav_addr_mem_dom (h : Heap) (v : Val) (ht : isTraversable h v = true) :
    ∃ b, v = .ref b ∧ b ∈ h.objs.map Prod.fst := by
  obtain ⟨b, o, rfl, ho⟩ := isTraversable_ref h v ht
  exact ⟨b, rfl, mem_dom_of_lookup h b o ho.1⟩

theorem seenAdd_nodup (seen : List Nat) (v : Val) (hn : seen.Nodup) :
    (seenAdd seen v).Nodup := by
  cases v
  case ref a =>
    simp only [seenAdd]
    by_cases ha : a ∈ seen
    · rw [if_pos ha]
      exact hn
    · rw [if_neg ha]
      refine List.Nodup.append hn (List.nodup_singleton a) ?_
      intro x hx hmem
      rw [List.mem_singleton] at hmem
      subst hmem
      exact ha hx
  all_goals exact hn

theorem seenAdd_subset (h : Heap) (seen : List Nat) (v : Val)
    (hs : ∀ x ∈ seen, x ∈ h.objs.map Prod.fst)
    (hv : isTraversable h v = true) :
    ∀ x ∈ seenAdd seen v, x ∈ h.objs.map Prod.fst := by
  obtain ⟨b, rfl, hb⟩ := trav_addr_mem_dom h v hv
  intro x hx
  simp only [seenAdd] at hx
  by_cases hbs : b ∈ seen
  · rw [if_pos hbs] at hx
    exact hs x hx
  · rw [if_neg hbs] at hx
    rcases List.mem_append.mp hx with hx | hx
    · exact hs x hx
    · rw [List.mem_singleton.mp hx]
      exact hb

theorem seenAdd_ext (seen : List Nat) (v : Val) :
    ∃ e, seenAdd seen v = seen ++ e := by
  cases v
  case ref a =>
    simp only [seenAdd]
    by_cases ha : a ∈ seen
    · rw [if_pos ha]
      exact ⟨[], by simp⟩
    · rw [if_neg ha]
      exact ⟨[a], rfl⟩
  all_goals exact ⟨[], by simp [seenAdd]⟩

theorem seenAdd_length (seen : List Nat) (v : Val) :
    seen.length ≤ (seenAdd seen v).length := by
  obtain ⟨e, he⟩ := seenAdd_ext seen v
  rw [he]
  simp

theorem seenAdd_length_of_not_has (seen : List Nat) (b : Nat)
    (hh : seenHas seen (.ref b) = false) :
    (seenAdd seen (.ref b)).length = seen.length + 1 := by
  have hb : b ∉ seen := by simpa [seenHas] using hh
  simp only [seenAdd]
  rw [if_neg hb]
  simp

theorem foldl_bind_total {α β : Type} (f : β → α → Option β) (Inv : β → Prop) :
    ∀ (L : List α),
      (∀ r x, x ∈ L → Inv r → ∃ r2, f r x = some r2 ∧ Inv r2) →
      ∀ r0, Inv r0 →
      ∃ out, L.foldl (fun acc x => acc.bind fun r => f r x) (some r0) = some out ∧
        Inv out := by
  intro L
  induction L with
  | nil =>
    intro hstep r0 h0
    exact ⟨r0, rfl, h0⟩
  | cons x rest ih =>
    intro hstep r0 h0
    obtain ⟨r1, hr1, h1⟩ := hstep r0 x (List.mem_cons_self x rest) h0
    obtain ⟨out, hout, hinv⟩ :=
      ih (fun r y hy hr => hstep r y (List.mem_cons_of_mem x hy) hr) r1 h1
    refine ⟨out, ?_, hinv⟩
    rw [List.foldl_cons, show ((some r0).bind fun r => f r x) = some r1 from by
      simp [hr1]]
    exact hout
theorem triggerAllDeps_total (h : Heap) :
    ∀ fuel st deps kf cv seen,
      seen.Nodup → (∀ x ∈ seen, x ∈ h.objs.map Prod.fst) →
      h.objs.length + 1 ≤ fuel + seen.length →
      ∃ out, triggerAllDeps h fuel st deps kf cv seen = some out ∧
        out.2.Nodup ∧ (∀ x ∈ out.2, x ∈ h.objs.map Prod.fst) ∧
        ∃ e2, out.2 = seen ++ e2 := by
  intro fuel
  induction fuel with
  | zero =>
    intro st deps kf cv seen hn hs hb
    exfalso
    have hle := nodup_subset_length_le seen (h.objs.map Prod.fst) hn hs
    have hml : (h.objs.map Prod.fst).length = h.objs.length := List.length_map ..
    omega
  | succ n ih =>
    intro st deps kf cv seen hn hs hb
    simp only [triggerAllDeps]
    by_cases hc : (deps.isSome && isTraversable h kf) = true
    · rw [if_pos hc]
      by_cases hsh : seenHas seen kf = true
      · rw [if_pos hsh]
        exact ⟨(st, seen), rfl, hn, hs, [], by simp⟩
      · rw [if_neg hsh]
        have hkt : isTraversable h kf = true := by
          cases hkb2 : isTraversable h kf
          · rw [hkb2] at hc
            simp at hc
          · rfl
        obtain ⟨b, hkb, hbdom⟩ := trav_addr_mem_dom h kf hkt
        cases deps with
        | none => simp at hc
        | some p0 =>
          simp only [Option.getD_some]
          have hsh2 : seenHas seen kf = false := by
            cases hq : seenHas seen kf
            · rfl
            · exact absurd hq hsh
          have hn1 : (seenAdd seen kf).Nodup := seenAdd_nodup _ _ hn
          have hs1 : ∀ x ∈ seenAdd seen kf, x ∈ h.objs.map Prod.fst :=
            seenAdd_subset h seen kf hs hkt
          have hl1 : (seenAdd seen kf).length = seen.length + 1 := by
            rw [hkb]
            rw [hkb] at hsh2
            exact seenAdd_length_of_not_has seen b hsh2
          obtain ⟨out, hout, hinv⟩ := foldl_bind_total
            (fun (r : DiffSt × List Nat) (key : String) =>
              if propEnum h kf key = true then
                triggerAllDeps h n
                  (registerChange r.1 (some (p0 ++ [key]))
                    (if isTraversable h cv && propEnum h cv key
                      then valAt h cv key else Val.undef))
                  (some (p0 ++ [key])) (valAt h kf key)
                  (if isTraversable h cv && propEnum h cv key
                    then valAt h cv key else Val.undef) r.2
              else some (registerChange r.1 (some (p0 ++ [key]))
                (if isTraversable h cv && propEnum h cv key
                  then valAt h cv key else Val.undef), r.2))
            (fun r => r.2.Nodup ∧ (∀ x ∈ r.2, x ∈ h.objs.map Prod.fst) ∧
              ∃ e2, r.2 = seenAdd seen kf ++ e2)
            (childKeys st.tree p0)
            (fun r key hkey hInv => by
              dsimp only
              obtain ⟨hrn, hrs, e2, hre⟩ := hInv
              by_cases hp : propEnum h kf key = true
              · rw [if_pos hp]
                have hblen : h.objs.length + 1 ≤ n + r.2.length := by
                  have : r.2.length = (seenAdd seen kf).length + e2.length := by
                    rw [hre]
                    simp
                  omega
                obtain ⟨out2, hout2, hn2, hs2, e3, he3⟩ :=
                  ih _ _ _ _ r.2 hrn hrs hblen
                exact ⟨out2, hout2, hn2, hs2,
                  ⟨e2 ++ e3, by rw [he3, hre, List.append_assoc]⟩⟩
              · rw [if_neg hp]
                exact ⟨_, rfl, hrn, hrs, e2, hre⟩)
            (st, seenAdd seen kf)
            ⟨hn1, hs1, [], by simp⟩
          obtain ⟨hon, hos, e2, hoe⟩ := hinv
          obtain ⟨ea, hea⟩ := seenAdd_ext seen kf
          exact ⟨out, hout, hon, hos,
            ⟨ea ++ e2, by rw [hoe, hea, List.append_assoc]⟩⟩
    · rw [if_neg hc]
      exact ⟨(st, seen), rfl, hn, hs, [], by simp⟩
theorem tcd_epilogue_total (h : Heap) (n : Nat) (r : DiffSt × List Nat × Bool × Bool)
    (node : Option (List String)) (newV : Val)
    (hbud : h.objs.length + 1 ≤ n) :
    ∃ out, ((if r.2.2.2 = true then some r.1
        else (triggerAllDeps h n r.1 node newV newV []).map (fun x => x.1)).map
        (fun st2 => ((if r.2.2.1 = true then registerChange st2 node newV else st2),
          r.2.1, r.2.2.1))) = some out ∧ out.2.1 = r.2.1 := by
  by_cases hf : r.2.2.2 = true
  · rw [if_pos hf]
    exact ⟨_, rfl, rfl⟩
  · rw [if_neg hf]
    obtain ⟨w, hw, _⟩ := triggerAllDeps_total h n r.1 node newV newV []
      List.nodup_nil (by simp) (by simpa using hbud)
    rw [hw]
    exact ⟨_, rfl, rfl⟩

theorem keyLoop_total (h : Heap) (n : Nat) (node : Option (List String))
    (oldV : Val) (nvf : String → Val)
    (rec_total : ∀ st node2 oV nV seen, seen.Nodup →
      (∀ x ∈ seen, x ∈ h.objs.map Prod.fst) →
      2 * h.objs.length + 2 ≤ n + seen.length →
      ∃ out, triggerChangedDeps h n st node2 oV nV seen = some out ∧
        out.2.1.Nodup ∧ (∀ x ∈ out.2.1, x ∈ h.objs.map Prod.fst) ∧
        ∃ e2, out.2.1 = seen ++ e2)
    (L : List String) (st0 : DiffSt) (s0 : List Nat) (b0 : Bool)
    (hn0 : s0.Nodup) (hs0 : ∀ x ∈ s0, x ∈ h.objs.map Prod.fst)
    (hb0 : 2 * h.objs.length + 2 ≤ n + s0.length) :
    ∃ w, L.foldl
        (fun acc key => acc.bind fun v =>
          if (!v.2.2 || (subDepAt v.1.tree node key).isSome) = true then
            (triggerChangedDeps h n v.1 (subDepAt v.1.tree node key)
                (valAt h oldV key) (nvf key) v.2.1).map
              (fun q => (q.1, q.2.1, v.2.2 || q.2.2))
          else some v)
        (some (st0, s0, b0)) = some w ∧
      w.2.1.Nodup ∧ (∀ x ∈ w.2.1, x ∈ h.objs.map Prod.fst) ∧
      ∃ e2, w.2.1 = s0 ++ e2 := by
  obtain ⟨w, hw, hwinv⟩ := foldl_bind_total
    (fun (v : DiffSt × List Nat × Bool) (key : String) =>
      if (!v.2.2 || (subDepAt v.1.tree node key).isSome) = true then
        (triggerChangedDeps h n v.1 (subDepAt v.1.tree node key)
            (valAt h oldV key) (nvf key) v.2.1).map
          (fun q => (q.1, q.2.1, v.2.2 || q.2.2))
      else some v)
    (fun v => v.2.1.Nodup ∧ (∀ x ∈ v.2.1, x ∈ h.objs.map Prod.fst) ∧
      ∃ e, v.2.1 = s0 ++ e)
    L
    (fun v key hkey hInv => by
      dsimp only
      obtain ⟨hvn, hvs, e, hve⟩ := hInv
      by_cases hcnd : (!v.2.2 || (subDepAt v.1.tree node key).isSome) = true
      · rw [if_pos hcnd]
        have hblen : 2 * h.objs.length + 2 ≤ n + v.2.1.length := by
          have : v.2.1.length = s0.length + e.length := by
            rw [hve]
            simp
          omega
        obtain ⟨q, hq, hqn, hqs, e3, he3⟩ :=
          rec_total _ _ _ _ v.2.1 hvn hvs hblen
        rw [hq]
        exact ⟨_, rfl, hqn, hqs,
          ⟨e ++ e3, by
            show q.2.1 = _
            rw [he3, hve, List.append_assoc]⟩⟩
      · rw [if_neg hcnd]
        exact ⟨v, rfl, hvn, hvs, e, hve⟩)
    (st0, s0, b0) ⟨hn0, hs0, [], by simp⟩
  obtain ⟨hwn, hws, e2, he2⟩ := hwinv
  exact ⟨w, hw, hwn, hws, e2, he2⟩

theorem triggerChangedDeps_total (h : Heap) :
    ∀ fuel st node oldV newV seen,
      seen.Nodup → (∀ x ∈ seen, x ∈ h.objs.map Prod.fst) →
      2 * h.objs.length + 2 ≤ fuel + seen.length →
      ∃ out, triggerChangedDeps h fuel st node oldV newV seen = some out ∧
        out.2.1.Nodup ∧ (∀ x ∈ out.2.1, x ∈ h.objs.map Prod.fst) ∧
        ∃ e2, out.2.1 = seen ++ e2 := by
  intro fuel
  induction fuel with
  | zero =>
    intro st node oldV newV seen hn hs hb
    exfalso
    have hle := nodup_subset_length_le seen (h.objs.map Prod.fst) hn hs
    have hml : (h.objs.map Prod.fst).length = h.objs.length := List.length_map ..
    omega
  | succ n ih =>
    intro st node oldV newV seen hn hs hb
    have hseenle := nodup_subset_length_le seen (h.objs.map Prod.fst) hn hs
    have hml : (h.objs.map Prod.fst).length = h.objs.length := List.length_map ..
    have hbud1 : h.objs.length + 1 ≤ n := by omega
    simp only [triggerChangedDeps]
    by_cases h1 : instanceOfObject oldV = true
    · rw [if_pos h1]
      by_cases h2 : oldV = newV
      · rw [if_pos h2, Option.some_bind]
        obtain ⟨out, hout, hseen⟩ := tcd_epilogue_total h n (st, seen, true, false)
          node newV hbud1
        have hseen2 : out.2.1 = seen := hseen
        exact ⟨out, hout, by rw [hseen2]; exact hn, by rw [hseen2]; exact hs,
          ⟨[], by rw [hseen2]; simp⟩⟩
      · rw [if_neg h2]
        by_cases h3 : isTraversable h oldV = true
        · rw [if_pos h3]
          by_cases h4 : (seenHas seen oldV || seenHas seen newV) = true
          · rw [if_pos h4, Option.some_bind]
            obtain ⟨out, hout, hseen⟩ := tcd_epilogue_total h n (st, seen, true, false)
              node newV hbud1
            have hseen2 : out.2.1 = seen := hseen
            exact ⟨out, hout, by rw [hseen2]; exact hn, by rw [hseen2]; exact hs,
              ⟨[], by rw [hseen2]; simp⟩⟩
          · rw [if_neg h4]
            obtain ⟨b, hob, hbdom⟩ := trav_addr_mem_dom h oldV h3
            have hsho : seenHas seen oldV = false := by
              cases hq : seenHas seen oldV
              · rfl
              · exfalso
                apply h4
                rw [hq]
                rfl
            have hn1 : (seenAdd seen oldV).Nodup := seenAdd_nodup _ _ hn
            have hs1 := seenAdd_subset h seen oldV hs h3
            have hl1 : (seenAdd seen oldV).length = seen.length + 1 := by
              rw [hob]
              rw [hob] at hsho
              exact seenAdd_length_of_not_has seen b hsho
            obtain ⟨eo, heo⟩ := seenAdd_ext seen oldV
            by_cases h5 : isTraversable h newV = true
            · rw [if_pos h5]
              have hn2 : (seenAdd (seenAdd seen oldV) newV).Nodup :=
                seenAdd_nodup _ _ hn1
              have hs2 := seenAdd_subset h (seenAdd seen oldV) newV hs1 h5
              have hl2 := seenAdd_length (seenAdd seen oldV) newV
              obtain ⟨en, hen⟩ := seenAdd_ext (seenAdd seen oldV) newV
              split
              · split
                · obtain ⟨w, hw, hwn, hws, ew, hwe⟩ := keyLoop_total h n node oldV
                    (fun key => valAt h newV key) ih _ _ _ _ hn2 hs2 (by omega)
                  rw [hw, Option.map_some', Option.some_bind]
                  obtain ⟨out, hout, hseen⟩ := tcd_epilogue_total h n
                    (w.1, w.2.1, w.2.2, true) node newV hbud1
                  have hseen2 : out.2.1 = w.2.1 := hseen
                  refine ⟨out, hout, ?_, ?_, ?_⟩
                  · rw [hseen2]
                    exact hwn
                  · rw [hseen2]
                    exact hws
                  · refine ⟨eo ++ en ++ ew, ?_⟩
                    rw [hseen2, hwe, hen, heo]
                    simp [List.append_assoc]
                · rw [Option.some_bind]
                  obtain ⟨out, hout, hseen⟩ := tcd_epilogue_total h n
                    (_, _, _, _) node newV hbud1
                  refine ⟨out, hout, ?_, ?_, ?_⟩
                  · have hseen2 : out.2.1 = seenAdd (seenAdd seen oldV) newV := hseen
                    rw [hseen2]
                    exact hn2
                  · have hseen2 : out.2.1 = seenAdd (seenAdd seen oldV) newV := hseen
                    rw [hseen2]
                    exact hs2
                  · have hseen2 : out.2.1 = seenAdd (seenAdd seen oldV) newV := hseen
                    refine ⟨eo ++ en, ?_⟩
                    rw [hseen2, hen, heo, List.append_assoc]
              · rw [Option.some_bind]
                obtain ⟨out, hout, hseen⟩ := tcd_epilogue_total h n
                  (_, _, _, _) node newV hbud1
                refine ⟨out, hout, ?_, ?_, ?_⟩
                · have hseen2 : out.2.1 = seenAdd (seenAdd seen oldV) newV := hseen
                  rw [hseen2]
                  exact hn2
                · have hseen2 : out.2.1 = seenAdd (seenAdd seen oldV) newV := hseen
                  rw [hseen2]
                  exact hs2
                · have hseen2 : out.2.1 = seenAdd (seenAdd seen oldV) newV := hseen
                  refine ⟨eo ++ en, ?_⟩
                  rw [hseen2, hen, heo, List.append_assoc]
            · rw [if_neg h5]
              by_cases h7 : node.isSome = true
              · rw [if_pos h7]
                obtain ⟨w, hw, hwn, hws, ew, hwe⟩ := keyLoop_total h n node oldV
                  (fun k => Val.undef) ih _ _ _ _ hn1 hs1 (by omega)
                rw [hw, Option.map_some', Option.some_bind]
                obtain ⟨out, hout, hseen⟩ := tcd_epilogue_total h n
                  (w.1, w.2.1, w.2.2, false) node newV hbud1
                have hseen2 : out.2.1 = w.2.1 := hseen
                refine ⟨out, hout, ?_, ?_, ?_⟩
                · rw [hseen2]
                  exact hwn
                · rw [hseen2]
                  exact hws
                · refine ⟨eo ++ ew, ?_⟩
                  rw [hseen2, hwe, heo, List.append_assoc]
              · rw [if_neg h7, Option.some_bind]
                obtain ⟨out, hout, hseen⟩ := tcd_epilogue_total h n
                  (st, seenAdd seen oldV, true, false) node newV hbud1
                have hseen2 : out.2.1 = seenAdd seen oldV := hseen
                exact ⟨out, hout, by rw [hseen2]; exact hn1,
                  by rw [hseen2]; exact hs1, ⟨eo, by rw [hseen2]; exact heo⟩⟩
        · rw [if_neg h3, Option.some_bind]
          obtain ⟨out, hout, hseen⟩ := tcd_epilogue_total h n
            (st, seen, eqCheckChanged h oldV newV, false) node newV hbud1
          have hseen2 : out.2.1 = seen := hseen
          exact ⟨out, hout, by rw [hseen2]; exact hn, by rw [hseen2]; exact hs,
            ⟨[], by rw [hseen2]; simp⟩⟩
    · rw [if_neg h1, Option.some_bind]
      obtain ⟨out, hout, hseen⟩ := tcd_epilogue_total h n
        (st, seen, decide (oldV ≠ newV), false) node newV hbud1
      have hseen2 : out.2.1 = seen := hseen
      exact ⟨out, hout, by rw [hseen2]; exact hn, by rw [hseen2]; exact hs,
        ⟨[], by rw [hseen2]; simp⟩⟩
theorem tcd_self_cycle (h : Heap) (a b : Nat) (oa ob : Obj) (k : String)
    (t : DepTree) (nd : NodeData) (d : Nat) (f : Nat)
    (hla : h.lookup a = some oa) (hlb : h.lookup b = some ob)
    (hoa : oa.kind = .object) (hob : ob.kind = .object)
    (hsha : oa.shallow = false) (hshb : ob.shallow = false)
    (hfa : oa.fields = [(k, .ref a)]) (hfb : ob.fields = [(k, .ref b)])
    (hab : a ≠ b)
    (hnode : treeGet t [] = some nd) (heqm : nd.eqDepMap = none)
    (hdep : nd.dep = some d) (hnok : treeHas t [k] = false) :
    triggerChangedDeps h (f + 3) ⟨t, []⟩ (some []) (.ref b) (.ref a) [] =
      some (⟨t, [d]⟩, [b, a], true) := by
  have htrava : isTraversable h (Val.ref a) = true := by
    simp [isTraversable, isObject, isArray, Heap.objAt, hla, hoa, hsha]
  have htravb : isTraversable h (Val.ref b) = true := by
    simp [isTraversable, isObject, isArray, Heap.objAt, hlb, hob, hshb]
  have hsc : sameCtor h (Val.ref b) (Val.ref a) = true := by
    simp [sameCtor, Heap.objAt, hla, hlb, hoa, hob]
  have hkeysa : objKeys h (Val.ref a) = [k] := by
    simp [objKeys, Heap.objAt, hla, Obj.keys, hfa]
  have hkeysb : objKeys h (Val.ref b) = [k] := by
    simp [objKeys, Heap.objAt, hlb, Obj.keys, hfb]
  have hva : valAt h (Val.ref a) k = Val.ref a := by
    simp [valAt, Heap.objAt, hla, hfa]
  have hvb : valAt h (Val.ref b) k = Val.ref b := by
    simp [valAt, Heap.objAt, hlb, hfb]
  have hne : ¬(Val.ref b = Val.ref a) := fun hq => hab (Val.ref.inj hq).symm
  have hTA : ∀ st : DiffSt,
      triggerAllDeps h (f + 1) st none (Val.ref a) (Val.ref a) [] = some (st, []) := by
    intro st
    simp [triggerAllDeps]
  have hInner : ∀ st : DiffSt,
      triggerChangedDeps h (f + 2) st none (Val.ref b) (Val.ref a) [b, a] =
        some (st, [b, a], true) := by
    intro st
    rw [show f + 2 = (f + 1) + 1 from rfl]
    generalize hg2 : f + 1 = g2
    rw [hg2] at hTA
    simp only [triggerChangedDeps]
    rw [if_pos (show instanceOfObject (Val.ref b) = true from rfl)]
    rw [if_neg hne, if_pos htravb]
    rw [if_pos (show (seenHas [b, a] (Val.ref b) || seenHas [b, a] (Val.ref a)) = true
      from by simp [seenHas])]
    rw [Option.some_bind]
    simp [hTA, registerChange]
  have hPNK : processNewKeys h (Val.ref a) true [k] (false, [k]) = (false, [k]) := by
    simp [processNewKeys]
  have hsub : subDepAt t (some []) k = none := by
    simp [subDepAt, hnok]
  rw [show f + 3 = (f + 2) + 1 from rfl]
  generalize hg : f + 2 = g
  rw [hg] at hInner
  simp only [triggerChangedDeps]
  rw [if_pos (show instanceOfObject (Val.ref b) = true from rfl)]
  rw [if_neg hne, if_pos htravb]
  rw [if_neg (show ¬(seenHas [] (Val.ref b) || seenHas [] (Val.ref a)) = true
    from by simp [seenHas])]
  rw [if_pos htrava]
  simp [hsc, hkeysa, hkeysb, hva, hvb, hInner, hsub, hnode, heqm, hdep,
    processNewKeys, registerChange, seenAdd, seenHas, optAdd, addToSet,
    hab, hab.symm]
theorem set_total (S : Store) (v : Val) (fuel : Nat)
    (hfuel : 2 * S.heap.objs.length + 2 ≤ fuel) :
    ∃ S2, S.set fuel v = some S2 := by
  obtain ⟨out, hout, -⟩ := triggerChangedDeps_total S.heap fuel
    ⟨S.tree, S.changeDeps⟩ (some []) S.data v [] List.nodup_nil (by simp)
    (by simpa using hfuel)
  rw [← Option.isSome_iff_exists]
  simp only [Store.set, Store.watchChanges, Store.diffSt]
  rw [hout]
  rfl

theorem getPathData_heap (S : Store) (p : String) :
    (S.getPathData p).2.heap = S.heap := by
  unfold Store.getPathData
  split
  · rfl
  · rfl

theorem setAtPathGo_total (unset : Bool) (value : Val) :
    ∀ toks fuel a deps parents S,
      2 * (S.heap.objs.length + toks.length) + 2 ≤ fuel →
      ∃ S2, setAtPathGo fuel unset value toks a deps parents S = some S2 := by
  intro toks
  induction toks with
  | nil =>
    intro fuel a deps parents S hb
    exact ⟨S, rfl⟩
  | cons t rest ih =>
    intro fuel a deps parents S hb
    cases rest with
    | nil =>
      simp only [setAtPathGo, Store.diffSt]
      by_cases hcond : (!unset || propEnum S.heap (Val.ref a) t) = true
      · rw [if_pos hcond]
        by_cases hu : unset = true
        · rw [if_pos hu]
          cases hdn : subDepAt S.tree deps t with
          | some dn =>
            dsimp only
            obtain ⟨w, hw, -⟩ := triggerAllDeps_total (S.heap.removeField a t) fuel
              ⟨S.tree, S.changeDeps⟩ (some dn) (valAt S.heap (Val.ref a) t)
              Val.undef [] List.nodup_nil (by simp)
              (by
                simp only [Heap.removeField, List.length_map, List.length_nil]
                simp only [List.length_cons, List.length_nil] at hb
                omega)
            rw [hw, ← Option.isSome_iff_exists]
            rfl
          | none =>
            dsimp only
            rw [← Option.isSome_iff_exists]
            rfl
        · rw [if_neg hu]
          obtain ⟨w, hw, -⟩ := triggerChangedDeps_total (S.heap.setField a t value) fuel
            ⟨S.tree, S.changeDeps⟩ (subDepAt S.tree deps t) (valAt S.heap (Val.ref a) t)
            value [] List.nodup_nil (by simp)
            (by
              simp only [Heap.setField, List.length_map, List.length_nil]
              simp only [List.length_cons, List.length_nil] at hb
              omega)
          rw [hw, ← Option.isSome_iff_exists]
          rfl
      · rw [if_neg hcond]
        exact ⟨S, rfl⟩
    | cons t2 rest2 =>
      simp only [setAtPathGo]
      by_cases htr : isTraversable S.heap (valAt S.heap (Val.ref a) t) = true
      · rw [if_pos htr]
        exact ih fuel _ _ _ S (by
          simp only [List.length_cons] at hb ⊢
          omega)
      · rw [if_neg htr]
        by_cases hu : unset = true
        · rw [if_pos hu]
          exact ⟨S, rfl⟩
        · rw [if_neg hu]
          exact ih fuel _ _ _ _ (by
            simp only [Heap.setField, Heap.alloc, List.length_map,
              List.length_append, List.length_cons, List.length_nil]
            simp only [List.length_cons] at hb
            omega)

theorem setAtPath_total (S : Store) (p : String) (v : Val) (fuel : Nat)
    (hb : 2 * (S.heap.objs.length + (S.getPathData p).1.tokens.length + 1) + 2 ≤ fuel) :
    ∃ S2, S.setAtPath fuel p v = some S2 := by
  have hheap : (S.getPathData p).2.heap = S.heap := getPathData_heap S p
  rw [← Option.isSome_iff_exists]
  simp only [Store.setAtPath]
  generalize (if (!(S.getPathData p).2.noMutate) = true then
      match (S.getPathData p).1.mutate with
      | some f => f v
      | none => v
    else v) = VV
  split
  · rfl
  · split
    · split
      · rfl
      · refine Option.isSome_iff_exists.mpr (setAtPathGo_total _ _ _ fuel _ _ _ _ ?_)
        simp only [Heap.alloc, List.length_append, List.length_cons,
          List.length_nil, hheap]
        omega
    · split
      · refine Option.isSome_iff_exists.mpr (setAtPathGo_total _ _ _ fuel _ _ _ _ ?_)
        rw [hheap]
        omega
      · rfl

theorem getPathData_fst_eq (S T : Store) (p : String)
    (hpd : T.pathData = S.pathData) :
    (T.getPathData p).1 = (S.getPathData p).1 := by
  unfold Store.getPathData
  rw [hpd]
  cases S.pathData.find? (fun e => e.1 == p) with
  | some e => rfl
  | none => rfl

theorem assign_singleton_total (S : Store) (p : String) (v : Val) (fuel : Nat)
    (hb : 2 * (S.heap.objs.length + (S.getPathData p).1.tokens.length + 1) + 2 ≤ fuel) :
    ∃ S2, S.assign fuel [(p, v)] = some S2 := by
  have ht : (({ S with opCount := S.opCount + 1 } : Store).getPathData p).1 =
      (S.getPathData p).1 := getPathData_fst_eq S _ p rfl
  obtain ⟨S2, hS2⟩ := setAtPath_total { S with opCount := S.opCount + 1 } p v fuel
    (by rw [ht]; exact hb)
  rw [← Option.isSome_iff_exists]
  simp only [Store.assign, Store.watchChanges, List.foldl_cons, List.foldl_nil,
    Option.some_bind]
  rw [hS2]
  rfl
/-- C6: for every value, including self-referential (cyclic) structures,
set terminates with enough fuel for one pass over the heap, assign of any
single path terminates with enough fuel for the walk, and in the canonical
cyclic scenario (old root and new value both self-referential objects of
the same shape) the diff hits the seen-reference guard, reports the root
node as changed, and fires its dependency. -/
theorem C6_cycle_safety (S : Store) (a b : Nat) (oa ob : Obj) (k : String)
    (nd : NodeData) (d : Nat) (fuel : Nat)
    (hla : S.heap.lookup a = some oa) (hlb : S.heap.lookup b = some ob)
    (hoa : oa.kind = .object) (hob : ob.kind = .object)
    (hsha : oa.shallow = false) (hshb : ob.shallow = false)
    (hfa : oa.fields = [(k, .ref a)]) (hfb : ob.fields = [(k, .ref b)])
    (hab : a ≠ b) (hdata : S.data = .ref b)
    (hnode : treeGet S.tree [] = some nd) (heqm : nd.eqDepMap = none)
    (hdep : nd.dep = some d) (hnok : treeHas S.tree [k] = false)
    (hcds : S.changeDeps = []) (hop : S.opCount = 0)
    (hfuel : 2 * S.heap.objs.length + 2 ≤ fuel) :
    (∀ v, ∃ S2, S.set fuel v = some S2) ∧
    (∀ p v fuel2,
      2 * (S.heap.objs.length + (S.getPathData p).1.tokens.length + 1) + 2 ≤ fuel2 →
      ∃ S2, S.assign fuel2 [(p, v)] = some S2) ∧
    (∀ g, ∃ S2, S.set (g + 3) (.ref a) = some S2 ∧ d ∈ S2.fired) := by
  refine ⟨fun v => set_total S v fuel hfuel,
    fun p v fuel2 hb2 => assign_singleton_total S p v fuel2 hb2, fun g => ?_⟩
  have hcyc := tcd_self_cycle S.heap a b oa ob k S.tree nd d g hla hlb hoa hob
    hsha hshb hfa hfb hab hnode heqm hdep hnok
  simp only [Store.set, Store.watchChanges, Store.diffSt]
  rw [hdata, hcds, hop, hcyc]
  refine ⟨_, rfl, ?_⟩
  simp [Store.putDiff]
/-- Witness: on the concrete two-object cyclic heap, setting the root to
the self-referential value at address 1 succeeds and fires the root
dependency 1. -/
theorem C6_cycle_safety_witness :
    ∃ S2, exCyc2Store.set (6 + 3) (.ref 1) = some S2 ∧ 1 ∈ S2.fired :=
  (C6_cycle_safety exCyc2Store 1 0 ⟨.object, [("self", .ref 1)], false⟩
    ⟨.object, [("self", .ref 0)], false⟩ "self" ⟨some 1, none, none⟩ 1 6
    rfl rfl rfl rfl rfl rfl rfl rfl (by decide) rfl
    rfl rfl rfl rfl rfl rfl (by decide)).2.2 6
end RS
